import Mathlib

/-!
Shallow embedding of rkfg/sdhasher (src/main.go), a content-hash cache
maintainer for a directory of model files.

Modelling conventions:

* Paths and JSON keys are `List Char`; the filesystem visible to both
  `os.Stat` and `filepath.WalkDir` is an association list from full path to
  file metadata (`FS`).  `filepath.Join`/`filepath.Rel` are modelled for
  clean slash-separated paths (`joinPath`, `relPath`).
* Timestamps are integer nanoseconds since the epoch (`ℤ`), exactly Go's
  `Time.UnixNano`.  The stored `MTime` is a `float64` of seconds in the Go
  code; it is modelled at nanosecond resolution (the value
  `float64(UnixNano())/1e9` differs from the exact quotient only below
  timestamp resolution, which we gloss).  `+1` second is `+10^9` ns.
* `int64(e.MTime)` (Go float-to-int conversion, truncation toward zero of
  the seconds value) is `truncSecNs`.
* SHA-256 itself is a library call in the source; it is abstracted as a
  parameter `H : List Nat → List Nat` mapping the full byte stream to the
  digest bytes.  The streaming `h.Write`/`h.Sum` protocol of `hash.Hash`
  (digest of all bytes written, writes never fail) is part of the model.
* `fmt.Sprintf("%.7f", m)` is `renderMTime`: fixed-point, exactly 7
  fractional digits, rounded to nearest at 10^-7 s.  (Go resolves exact
  ties to even, the model toward +infinity; ties need a stored time of
  exactly 50 ns past a 100 ns grid point, immaterial to every claim here.
  Go also prints `-0.0000000` for tiny negative values; the model drops
  the sign of a zero, which no claim observes.)
* The bounded channels, worker pool and single collector goroutine are
  determinised: the staleness pass runs over the whole loaded cache, then
  the directory walk, then every task's hash is computed and merged.  The
  merged map is an association list keyed like the Go `map[string]entry`;
  `json.Encoder` sorts map keys, which `renderObj` reproduces.
-/

abbrev FPath : Type := List Char

/-- File metadata plus content as visible on disk: `ModTime().UnixNano()`
and the byte stream `os.Open`/`Read` would deliver. -/
structure FileInfo where
  mtimeNs : ℤ
  content : List Nat
deriving DecidableEq, Repr

/-- One cache entry (`type entry` in main.go): stored modification time
(seconds float, modelled in ns), hex digest string, and the non-persisted
`path` field. -/
structure Entry where
  mtimeNs : ℤ
  sha256 : List Char
  path : FPath
deriving DecidableEq, Repr

/-- The filesystem under the scanned root: association list from full path
to metadata, in `filepath.WalkDir` visiting order (files only; directories
are never hashed and are abstracted away). -/
abbrev FS : Type := List (FPath × FileInfo)

/-- `os.Stat` against the modelled filesystem. -/
def statFS : FS → FPath → Option FileInfo
  | [], _ => none
  | pe :: t, p => if pe.1 = p then some pe.2 else statFS t p

/-- The `"checkpoint/"` namespace tag prepended to every merged key. -/
def checkpointTag : FPath := "checkpoint/".toList

/-- `strings.TrimPrefix`. -/
def trimPre (pre s : List Char) : List Char :=
  if pre <+: s then s.drop pre.length else s

/-- `filepath.Join(root, rel)` for clean slash paths. -/
def joinPath (root rel : FPath) : FPath := root ++ '/' :: rel

/-- `filepath.Rel(root, p)` for `p` lying under `root`. -/
def relPath (root p : FPath) : FPath := p.drop (root.length + 1)

/-- main.go:137 — resolve a cache key back to a filesystem path:
`filepath.Join(params.Path, strings.TrimPrefix(p, "checkpoint/"))`. -/
def resolveKey (root : FPath) (k : FPath) : FPath :=
  joinPath root (trimPre checkpointTag k)

/-- `filepath.Ext`: the suffix starting at the final dot of the final path
element; empty when that element has no dot. -/
def extOf (p : FPath) : List Char :=
  if ((p.reverse.takeWhile fun c => c ≠ '/').contains '.') then
    (((p.reverse.takeWhile fun c => c ≠ '/').takeWhile fun c => c ≠ '.') ++ ['.']).reverse
  else []

/-- main.go:158-159 — case-insensitive extension allow-list. -/
def recognizedExt (p : FPath) : Bool :=
  (extOf p).map Char.toLower = ".safetensors".toList ∨
    (extOf p).map Char.toLower = ".ckpt".toList

/-- Go `int64(f)` applied to the stored seconds value: truncation toward
zero of `t` nanoseconds to whole seconds. -/
def truncSecNs (t : ℤ) : ℤ :=
  if 0 ≤ t then t / 1000000000 else -((-t) / 1000000000)

/-- main.go:144 — `fi.ModTime().Sub(time.Unix(int64(e.MTime), 0)) >
time.Second*2`, in nanoseconds.  Note: a signed, one-sided comparison. -/
def staleNs (fiNs : ℤ) (e : Entry) : Prop :=
  2 * 1000000000 < fiNs - truncSecNs e.mtimeNs * 1000000000

instance (fiNs : ℤ) (e : Entry) : Decidable (staleNs fiNs e) := by
  unfold staleNs; exact inferInstance

/-- Result of the staleness-detection loop (main.go:135-149): surviving
entries, rehash tasks emitted, and the known-paths set. -/
structure ScanState where
  hashes : List (FPath × Entry)
  tasks : List FPath
  known : List FPath
deriving DecidableEq, Repr

/-- main.go:135-149 — for each loaded entry resolve its path; on stat
failure delete the entry and `continue` (skipping the known-paths record);
otherwise keep it, emit a task when stale, and record the path as known. -/
def stalenessPass (root : FPath) (fs : FS) : List (FPath × Entry) → ScanState
  | [] => ⟨[], [], []⟩
  | ke :: t =>
    let s := stalenessPass root fs t
    match statFS fs (resolveKey root ke.1) with
    | none => s
    | some fi =>
      ⟨ke :: s.hashes,
        if staleNs fi.mtimeNs ke.2 then resolveKey root ke.1 :: s.tasks else s.tasks,
        resolveKey root ke.1 :: s.known⟩

/-- main.go:150-166 — the directory walk: visit files under the root, keep
recognized extensions not already known, emit a task for each. -/
def scanPass (fs : FS) (known : List FPath) : List FPath :=
  fs.filterMap fun pe =>
    if recognizedExt pe.1 ∧ pe.1 ∉ known then some pe.1 else none

/-- One `f.Read(buf[:])` outcome: the bytes filled into the buffer and
whether an error accompanied them. -/
structure ReadRes where
  bytes : List Nat
  err : Bool
deriving DecidableEq, Repr

/-- main.go:67-79 — the read/digest loop.  `none` is the error return.
A read returning bytes together with an error returns the error before
the bytes reach the digest; a read returning zero bytes ends the loop
regardless of its error (`n != 0 && err != nil` guards the return, and
the `for n > 0` condition then stops).  `h.Write` never fails for a
`crypto/sha256` digest, so the dead error branch at main.go:75-78 has no
model.  An exhausted list behaves as `(0, io.EOF)`. -/
def readLoop : List ReadRes → List Nat → Option (List Nat)
  | [], acc => some acc
  | r :: rs, acc =>
    if r.bytes ≠ [] ∧ r.err then none
    else if r.bytes = [] then some acc
    else readLoop rs (acc ++ r.bytes)

/-- What the worker sees of one file: `d.Info()` outcome, whether
`os.Open` succeeds, and the successive read results. -/
structure FileHandle where
  info : Option ℤ
  openOk : Bool
  reads : List ReadRes
deriving DecidableEq, Repr

/-- Lowercase hex digit. -/
def hexChar (n : Nat) : Char :=
  if n < 10 then Char.ofNat (48 + n) else Char.ofNat (87 + n)

/-- `fmt.Sprintf("%x", hash)` — two lowercase hex digits per byte. -/
def hexBytes (bs : List Nat) : List Char :=
  (bs.map fun b => [hexChar (b / 16 % 16), hexChar (b % 16)]).flatten

/-- main.go:48-82 — the worker: stat via the task's dir entry (error →
return), record `mtime := seconds + 1` (one-second margin), open (error →
return), stream the file through the digest, and render the digest in
lowercase hex.  `none` models the error return (the caller then drops the
task, main.go:113-118). -/
def workerRun (H : List Nat → List Nat) (f : FileHandle) (p : FPath) : Option Entry :=
  match f.info with
  | none => none
  | some m =>
    if f.openOk then
      match readLoop f.reads [] with
      | none => none
      | some data => some ⟨m + 1000000000, hexBytes (H data), p⟩
    else none

/-- Chunked reading, structured on a fuel bound (the content length, so
fuel never runs out). -/
def chunkReadsAux : Nat → Nat → List Nat → List ReadRes
  | 0, _, _ => []
  | fuel + 1, csize, content =>
    if csize = 0 ∨ content = [] then []
    else ⟨content.take csize, false⟩ :: chunkReadsAux fuel csize (content.drop csize)

/-- The reads `os.File.Read` delivers into the 16384-byte buffer for a
file of the given content, for a general buffer size: full chunks, then
the remainder, then `(0, io.EOF)` (the exhausted list). -/
def chunkReads (csize : Nat) (content : List Nat) : List ReadRes :=
  chunkReadsAux content.length csize content

/-- The worker's view of an on-disk file when no I/O error intervenes:
stat succeeds with the file's mtime, open succeeds, reads stream the
content in 16384-byte chunks (main.go:58). -/
def fileHandleOf (fs : FS) (p : FPath) : FileHandle :=
  match statFS fs p with
  | none => ⟨none, false, []⟩
  | some fi => ⟨some fi.mtimeNs, true, chunkReads 16384 fi.content⟩

/-- Run the worker on a task path against the (unchanged) filesystem. -/
def runWorker (H : List Nat → List Nat) (fs : FS) (p : FPath) : Option Entry :=
  workerRun H (fileHandleOf fs p) p

/-- main.go:125-131 — the collector's key for a completed entry:
`"checkpoint/" + filepath.Rel(params.Path, e.path)`. -/
def mergeKey (root : FPath) (e : Entry) : FPath :=
  checkpointTag ++ relPath root e.path

/-- Go map assignment `m[k] = v` on an association list: replace the
binding in place or append a new one. -/
def insertKey : List (FPath × Entry) → FPath → Entry → List (FPath × Entry)
  | [], k, v => [(k, v)]
  | kv :: t, k, v => if kv.1 = k then (k, v) :: t else kv :: insertKey t k v

/-- main.go:122-134 — the result collector: merge every completed entry
into the cache map under its checkpoint key. -/
def mergePass (root : FPath) : List (FPath × Entry) → List Entry → List (FPath × Entry)
  | hs, [] => hs
  | hs, r :: rs => mergePass root (insertKey hs (mergeKey root r) r) rs

/-- Deserialized cache file (`type cache`): the `hashes` object and the
optional `hashes-addnet` object (`none` = field absent from the JSON). -/
structure Cache where
  hashes : List (FPath × Entry)
  hashesAddnet : Option (List (FPath × Entry))
deriving DecidableEq, Repr

/-- All hashing tasks of one run: staleness-detected rehashes, then the
directory scanner's discoveries (the scanner compares against the fully
built known set, per the channel/ordering discipline of main). -/
def allTasks (root : FPath) (fs : FS) (l : List (FPath × Entry)) : List FPath :=
  (stalenessPass root fs l).tasks ++ scanPass fs (stalenessPass root fs l).known

/-- The entries the worker pool delivers to the collector; failed tasks
are dropped (main.go:115-117). -/
def runResults (H : List Nat → List Nat) (root : FPath) (fs : FS)
    (l : List (FPath × Entry)) : List Entry :=
  (allTasks root fs l).filterMap (runWorker H fs)

/-- One full run of the pipeline: load `c`, reconcile against `fs`, hash,
merge, leaving `hashes-addnet` untouched (it is never read or written
after decoding, main.go:34). -/
def runPipeline (H : List Nat → List Nat) (root : FPath) (fs : FS) (c : Cache) : Cache :=
  ⟨mergePass root (stalenessPass root fs c.hashes).hashes (runResults H root fs c.hashes),
    c.hashesAddnet⟩

/-- A well-formed filesystem for a scan root: every walked path lies
directly under the root with a slash separator (what `filepath.WalkDir`
yields for a clean root). -/
def wfFS (root : FPath) (fs : FS) : Prop :=
  ∀ pe ∈ fs, (root ++ ['/']) <+: pe.1

instance (root : FPath) (fs : FS) : Decidable (wfFS root fs) := by
  unfold wfFS; exact inferInstance

/-- Decimal digits, most significant first, on a fuel bound. -/
def natCharsAux : Nat → Nat → List Char
  | 0, _ => []
  | fuel + 1, n =>
    if n < 10 then [Char.ofNat (48 + n)]
    else natCharsAux fuel (n / 10) ++ [Char.ofNat (48 + n % 10)]

/-- Decimal digits of a natural number, most significant first (the fuel
`n + 1` always suffices). -/
def natChars (n : Nat) : List Char := natCharsAux (n + 1) n

/-- `%.7f` scaling: the stored time `t` ns is `t/10^9` seconds; the
rendered value is the nearest multiple of 10^-7 s, i.e. `round(t/100)`
hundreds of nanoseconds (floor form of round-to-nearest). -/
def scaled7 (t : ℤ) : ℤ := (t + 50) / 100

/-- The 7 fractional digits, zero-padded on the left. -/
def padFrac (m : Nat) : List Char :=
  List.replicate (7 - (natChars m).length) '0' ++ natChars m

/-- Fixed-point rendering of a nonnegative count of 10^-7 seconds. -/
def renderFixed7 (n : Nat) : List Char :=
  natChars (n / 10000000) ++ '.' :: padFrac (n % 10000000)

/-- MTime.MarshalJSON (main.go:44-46): `fmt.Sprintf("%.7f", m)` — plain
fixed-point decimal, exactly 7 fractional digits, never scientific. -/
def renderMTime (t : ℤ) : List Char :=
  if scaled7 t < 0 then '-' :: renderFixed7 (scaled7 t).natAbs
  else renderFixed7 (scaled7 t).toNat

/-- One serialized entry object (layout of the indented encoder is
abstracted to a constant shape; key order inside an entry is fixed by the
struct declaration order `mtime`, `sha256`). -/
def renderEntryJ (e : Entry) : List Char :=
  "\x7b\"mtime\": ".toList ++ renderMTime e.mtimeNs ++
    ", \"sha256\": \"".toList ++ e.sha256 ++ "\"\x7d".toList

/-- Byte order of Go string comparison, used by `encoding/json` to sort
object keys. -/
def keyLe : List Char → List Char → Bool
  | [], _ => true
  | _ :: _, [] => false
  | a :: as, b :: bs => if a < b then true else if a = b then keyLe as bs else false

/-- Insertion sort by key, modelling the encoder's key sort. -/
def insertSorted (x : FPath × Entry) : List (FPath × Entry) → List (FPath × Entry)
  | [] => [x]
  | y :: t => if keyLe x.1 y.1 then x :: y :: t else y :: insertSorted x t

/-- Sort an object's bindings by key. -/
def sortByKey : List (FPath × Entry) → List (FPath × Entry)
  | [] => []
  | x :: t => insertSorted x (sortByKey t)

/-- The comma-separated bindings of a JSON object. -/
def renderPairs : List (FPath × Entry) → List Char
  | [] => []
  | [ke] => '"' :: ke.1 ++ "\": ".toList ++ renderEntryJ ke.2
  | ke :: t => '"' :: ke.1 ++ "\": ".toList ++ renderEntryJ ke.2 ++ ", ".toList ++ renderPairs t

/-- A JSON object with sorted keys. -/
def renderObj (l : List (FPath × Entry)) : List Char :=
  '\x7b' :: renderPairs (sortByKey l) ++ ['\x7d']

/-- The `hashes-addnet` field with its `omitempty` tag: omitted when the
decoded map is nil (field absent) or empty. -/
def renderAddnet : Option (List (FPath × Entry)) → List Char
  | some (ke :: t) => ", \"hashes-addnet\": ".toList ++ renderObj (ke :: t)
  | _ => []

/-- main.go:176-181 — serialize the final cache (whitespace of the
indented encoder abstracted; `mtime` via MTime.MarshalJSON; map keys
sorted by the encoder). -/
def serializeCache (c : Cache) : List Char :=
  "\x7b\"hashes\": ".toList ++ renderObj c.hashes ++
    renderAddnet c.hashesAddnet ++ ['\x7d']

/-- Decoding what `serializeCache` wrote: every stored time comes back at
the 7-fractional-digit resolution of `%.7f` (in ns: the nearest multiple
of 100), the non-persisted `path` field comes back as its zero value, and
an omitted or empty `hashes-addnet` decodes to the absent map. -/
def roundTripEntry (e : Entry) : Entry :=
  ⟨scaled7 e.mtimeNs * 100, e.sha256, []⟩

/-- Feed the serialized output of one run back in as the next run's input
cache (decode of encode). -/
def roundTrip (c : Cache) : Cache :=
  ⟨c.hashes.map fun ke => (ke.1, roundTripEntry ke.2),
    match c.hashesAddnet with
    | some (ke :: t) => some ((ke :: t).map fun kv => (kv.1, roundTripEntry kv.2))
    | _ => none⟩

/-- Association-list lookup, the read side of the Go map. -/
def lookupKey : List (FPath × Entry) → FPath → Option Entry
  | [], _ => none
  | kv :: t, k => if kv.1 = k then some kv.2 else lookupKey t k

/-- Entry-render congruence carrier: what the serializer reads from one
binding (key plus rendered entry). -/
def renderPairKV (ke : FPath × Entry) : FPath × List Char :=
  (ke.1, renderEntryJ ke.2)

/-- The bytes the read loop accumulates into the digest on a successful
run: the contents of the reads strictly before the first read that either
returns zero bytes or carries an error. -/
def cleanBytes : List ReadRes → List Nat
  | [] => []
  | r :: rs => if r.bytes = [] ∨ r.err then [] else r.bytes ++ cleanBytes rs

/-- All stored times of a loaded cache are post-epoch. -/
def nonnegTimes (c : Cache) : Prop := ∀ ke ∈ c.hashes, 0 ≤ ke.2.mtimeNs

instance (c : Cache) : Decidable (nonnegTimes c) := by
  unfold nonnegTimes; exact inferInstance

/-- All on-disk modification times are post-epoch. -/
def nonnegFS (fs : FS) : Prop := ∀ pe ∈ fs, 0 ≤ pe.2.mtimeNs

instance (fs : FS) : Decidable (nonnegFS fs) := by
  unfold nonnegFS; exact inferInstance

theorem trimPre_append (pre r : List Char) : trimPre pre (pre ++ r) = r := by
  unfold trimPre
  rw [if_pos (List.prefix_append pre r)]
  exact List.drop_left pre r

theorem trimPre_of_not_prefix {pre s : List Char} (h : ¬ pre <+: s) : trimPre pre s = s := by
  simp [trimPre, h]

theorem relPath_joinPath (root r : FPath) : relPath root (joinPath root r) = r := by
  show (root ++ '/' :: r).drop (root.length + 1) = r
  have h : root ++ '/' :: r = (root ++ ['/']) ++ r := by
    rw [List.append_assoc]
    rfl
  have h2 : root.length + 1 = (root ++ ['/']).length := by simp
  rw [h, h2]
  exact List.drop_left _ _

theorem joinPath_relPath {root p : FPath} (h : (root ++ ['/']) <+: p) :
    joinPath root (relPath root p) = p := by
  obtain ⟨t, rfl⟩ := h
  rw [show (root ++ ['/']) ++ t = root ++ '/' :: t by simp]
  rw [show root ++ '/' :: t = joinPath root t from rfl, relPath_joinPath]

theorem relPath_inj {root p q : FPath} (hp : (root ++ ['/']) <+: p)
    (hq : (root ++ ['/']) <+: q) (h : relPath root p = relPath root q) : p = q := by
  have h1 := joinPath_relPath hp
  have h2 := joinPath_relPath hq
  rw [← h1, ← h2, h]

theorem resolveKey_checkpoint (root r : FPath) :
    resolveKey root (checkpointTag ++ r) = joinPath root r := by
  simp [resolveKey, trimPre_append]

theorem resolveKey_of_not_prefix {k : FPath} (root : FPath) (h : ¬ checkpointTag <+: k) :
    resolveKey root k = joinPath root k := by
  simp [resolveKey, trimPre_of_not_prefix h]

theorem mergeKey_def (root : FPath) (e : Entry) :
    mergeKey root e = checkpointTag ++ relPath root e.path := rfl

theorem checkpointTag_prefix_of_mergeKey (root : FPath) (e : Entry) :
    checkpointTag <+: mergeKey root e := List.prefix_append _ _

theorem resolveKey_mergeKey {root : FPath} {e : Entry}
    (h : (root ++ ['/']) <+: e.path) : resolveKey root (mergeKey root e) = e.path := by
  rw [mergeKey_def, resolveKey_checkpoint, joinPath_relPath h]

theorem statFS_eq_some_mem {fs : FS} {p : FPath} {fi : FileInfo}
    (h : statFS fs p = some fi) : (p, fi) ∈ fs := by
  induction fs with
  | nil => simp [statFS] at h
  | cons pe t ih =>
    simp only [statFS] at h
    by_cases hp : pe.1 = p
    · rw [if_pos hp] at h
      have h2 : pe.2 = fi := Option.some.inj h
      have h3 : pe = (p, fi) := Prod.ext hp h2
      rw [← h3]
      exact List.mem_cons_self _ _
    · rw [if_neg hp] at h
      exact List.mem_cons_of_mem _ (ih h)

theorem statFS_isSome_iff {fs : FS} {p : FPath} :
    (statFS fs p).isSome ↔ ∃ fi, (p, fi) ∈ fs := by
  induction fs with
  | nil => simp [statFS]
  | cons pe t ih =>
    simp only [statFS]
    by_cases hp : pe.1 = p
    · rw [if_pos hp]
      simp only [Option.isSome_some, true_iff]
      exact ⟨pe.2, List.mem_cons.mpr (Or.inl (Prod.ext hp.symm rfl))⟩
    · rw [if_neg hp, ih]
      constructor
      · rintro ⟨fi, hfi⟩
        exact ⟨fi, List.mem_cons_of_mem _ hfi⟩
      · rintro ⟨fi, hfi⟩
        rcases List.mem_cons.mp hfi with h1 | h1
        · exact absurd (congrArg Prod.fst h1.symm) hp
        · exact ⟨fi, h1⟩

theorem statFS_eq_none_iff {fs : FS} {p : FPath} :
    statFS fs p = none ↔ ∀ fi, (p, fi) ∉ fs := by
  rw [← Option.not_isSome_iff_eq_none, statFS_isSome_iff]
  push_neg
  rfl

theorem lookupKey_eq_none_iff {l : List (FPath × Entry)} {k : FPath} :
    lookupKey l k = none ↔ ∀ ke ∈ l, ke.1 ≠ k := by
  induction l with
  | nil => simp [lookupKey]
  | cons kv t ih =>
    simp only [lookupKey]
    by_cases hk : kv.1 = k
    · rw [if_pos hk]
      constructor
      · intro hcon
        simp at hcon
      · intro h
        exact absurd hk (h kv (List.mem_cons_self _ _))
    · rw [if_neg hk, ih]
      constructor
      · intro h ke hke
        rcases List.mem_cons.mp hke with h1 | h1
        · rw [h1]; exact hk
        · exact h ke h1
      · intro h ke hke
        exact h ke (List.mem_cons_of_mem _ hke)

theorem lookupKey_isSome_iff {l : List (FPath × Entry)} {k : FPath} :
    (lookupKey l k).isSome ↔ ∃ e, (k, e) ∈ l := by
  induction l with
  | nil => simp [lookupKey]
  | cons kv t ih =>
    simp only [lookupKey]
    by_cases hk : kv.1 = k
    · rw [if_pos hk]
      simp only [Option.isSome_some, true_iff]
      exact ⟨kv.2, List.mem_cons.mpr (Or.inl (Prod.ext hk.symm rfl))⟩
    · rw [if_neg hk, ih]
      constructor
      · rintro ⟨e, he⟩
        exact ⟨e, List.mem_cons_of_mem _ he⟩
      · rintro ⟨e, he⟩
        rcases List.mem_cons.mp he with h1 | h1
        · exact absurd (congrArg Prod.fst h1.symm) hk
        · exact ⟨e, h1⟩

theorem lookupKey_eq_some_mem {l : List (FPath × Entry)} {k : FPath} {v : Entry}
    (h : lookupKey l k = some v) : (k, v) ∈ l := by
  induction l with
  | nil => simp [lookupKey] at h
  | cons kv t ih =>
    simp only [lookupKey] at h
    by_cases hk : kv.1 = k
    · rw [if_pos hk] at h
      have h2 : kv.2 = v := Option.some.inj h
      exact List.mem_cons.mpr (Or.inl (Prod.ext hk h2).symm)
    · rw [if_neg hk] at h
      exact List.mem_cons_of_mem _ (ih h)

theorem lookupKey_of_nodup_mem {l : List (FPath × Entry)} {k : FPath} {v : Entry}
    (hnd : (l.map Prod.fst).Nodup) (h : (k, v) ∈ l) : lookupKey l k = some v := by
  induction l with
  | nil => simp at h
  | cons kv t ih =>
    simp only [List.map_cons, List.nodup_cons] at hnd
    rcases List.mem_cons.mp h with h1 | h1
    · rw [← h1]
      simp [lookupKey]
    · have hk : kv.1 ≠ k := by
        intro hcon
        exact hnd.1 (hcon ▸ (List.mem_map.mpr ⟨(k, v), h1, rfl⟩))
      simp only [lookupKey, if_neg hk]
      exact ih hnd.2 h1

theorem mem_insertKey {l : List (FPath × Entry)} {k : FPath} {v : Entry} {ke : FPath × Entry}
    (h : ke ∈ insertKey l k v) : ke ∈ l ∨ ke = (k, v) := by
  induction l with
  | nil => simp [insertKey] at h; right; exact h
  | cons kv t ih =>
    simp only [insertKey] at h
    by_cases hk : kv.1 = k
    · rw [if_pos hk] at h
      rcases List.mem_cons.mp h with h1 | h1
      · right; exact h1
      · left; exact List.mem_cons_of_mem _ h1
    · rw [if_neg hk] at h
      rcases List.mem_cons.mp h with h1 | h1
      · left; rw [h1]; exact List.mem_cons_self _ _
      · rcases ih h1 with h2 | h2
        · left; exact List.mem_cons_of_mem _ h2
        · right; exact h2

theorem lookupKey_insertKey_self (l : List (FPath × Entry)) (k : FPath) (v : Entry) :
    lookupKey (insertKey l k v) k = some v := by
  induction l with
  | nil => simp [insertKey, lookupKey]
  | cons kv t ih =>
    simp only [insertKey]
    by_cases hk : kv.1 = k
    · rw [if_pos hk]
      simp [lookupKey]
    · rw [if_neg hk]
      simp only [lookupKey, if_neg hk]
      exact ih

theorem lookupKey_insertKey_ne {l : List (FPath × Entry)} {k k' : FPath} (v : Entry)
    (h : k' ≠ k) : lookupKey (insertKey l k v) k' = lookupKey l k' := by
  induction l with
  | nil =>
    simp only [insertKey, lookupKey]
    rw [if_neg (fun hc : k = k' => h hc.symm)]
  | cons kv t ih =>
    simp only [insertKey]
    by_cases hk : kv.1 = k
    · rw [if_pos hk]
      simp only [lookupKey]
      have h1 : ¬ k = k' := fun hc => h hc.symm
      have h2 : ¬ kv.1 = k' := fun hc => h1 (hk.symm.trans hc)
      rw [if_neg h1, if_neg h2]
    · rw [if_neg hk]
      simp only [lookupKey]
      by_cases hk2 : kv.1 = k'
      · rw [if_pos hk2, if_pos hk2]
      · rw [if_neg hk2, if_neg hk2]
        exact ih

theorem insertKey_of_lookup_eq {l : List (FPath × Entry)} {k : FPath} {v : Entry}
    (h : lookupKey l k = some v) : insertKey l k v = l := by
  induction l with
  | nil => simp [lookupKey] at h
  | cons kv t ih =>
    simp only [lookupKey] at h
    simp only [insertKey]
    by_cases hk : kv.1 = k
    · rw [if_pos hk] at h
      rw [if_pos hk]
      have h2 : kv.2 = v := Option.some.inj h
      rw [← hk, ← h2]
    · rw [if_neg hk] at h
      rw [if_neg hk, ih h]

theorem mem_mergePass {root : FPath} {hs : List (FPath × Entry)} {rs : List Entry}
    {ke : FPath × Entry} (h : ke ∈ mergePass root hs rs) :
    ke ∈ hs ∨ ∃ r ∈ rs, ke = (mergeKey root r, r) := by
  induction rs generalizing hs with
  | nil => left; exact h
  | cons r rs ih =>
    simp only [mergePass] at h
    rcases ih h with h1 | h1
    · rcases mem_insertKey h1 with h2 | h2
      · left; exact h2
      · right; exact ⟨r, List.mem_cons_self _ _, h2⟩
    · rcases h1 with ⟨r', hr', hk'⟩
      right; exact ⟨r', List.mem_cons_of_mem _ hr', hk'⟩

theorem lookupKey_mergePass_of_not_target {root : FPath} {hs : List (FPath × Entry)}
    {rs : List Entry} {k : FPath} (h : ∀ r ∈ rs, mergeKey root r ≠ k) :
    lookupKey (mergePass root hs rs) k = lookupKey hs k := by
  induction rs generalizing hs with
  | nil => rfl
  | cons r rs ih =>
    simp only [mergePass]
    rw [ih fun r' hr' => h r' (List.mem_cons_of_mem _ hr')]
    exact lookupKey_insertKey_ne _ fun hc => h r (List.mem_cons_self _ _) hc.symm

theorem lookupKey_mergePass_isSome {root : FPath} {hs : List (FPath × Entry)}
    {rs : List Entry} {k : FPath} (h : (lookupKey hs k).isSome) :
    (lookupKey (mergePass root hs rs) k).isSome := by
  induction rs generalizing hs with
  | nil => exact h
  | cons r rs ih =>
    simp only [mergePass]
    apply ih
    by_cases hk : mergeKey root r = k
    · rw [← hk, lookupKey_insertKey_self]
      simp
    · rw [lookupKey_insertKey_ne _ fun hc => hk hc.symm]
      exact h

theorem lookupKey_mergePass_of_all_eq {root : FPath} {hs : List (FPath × Entry)}
    {rs : List Entry} {k : FPath} {v : Entry} (hex : ∃ r ∈ rs, mergeKey root r = k)
    (hall : ∀ r ∈ rs, mergeKey root r = k → r = v) :
    lookupKey (mergePass root hs rs) k = some v := by
  induction rs generalizing hs with
  | nil =>
    rcases hex with ⟨r, hr, _⟩
    cases hr
  | cons r rs ih =>
    simp only [mergePass]
    by_cases hrest : ∃ r' ∈ rs, mergeKey root r' = k
    · exact ih hrest fun r' h1 h2 => hall r' (List.mem_cons_of_mem _ h1) h2
    · have hr : mergeKey root r = k := by
        rcases hex with ⟨r', hr', hk'⟩
        rcases List.mem_cons.mp hr' with h1 | h1
        · exact h1 ▸ hk'
        · exact absurd ⟨r', h1, hk'⟩ hrest
      have hrv : r = v := hall r (List.mem_cons_self _ _) hr
      rw [lookupKey_mergePass_of_not_target fun r' h1 hc => hrest ⟨r', h1, hc⟩]
      rw [hr, lookupKey_insertKey_self, hrv]

theorem mergePass_eq_self {root : FPath} {hs : List (FPath × Entry)} {rs : List Entry}
    (h : ∀ r ∈ rs, lookupKey hs (mergeKey root r) = some r) :
    mergePass root hs rs = hs := by
  induction rs with
  | nil => rfl
  | cons r rs ih =>
    simp only [mergePass]
    rw [insertKey_of_lookup_eq (h r (List.mem_cons_self _ _))]
    exact ih fun r' h1 => h r' (List.mem_cons_of_mem _ h1)

theorem stalenessPass_cons_none {root : FPath} {fs : FS} {ke : FPath × Entry}
    {t : List (FPath × Entry)} (hst : statFS fs (resolveKey root ke.1) = none) :
    stalenessPass root fs (ke :: t) = stalenessPass root fs t := by
  simp only [stalenessPass, hst]

theorem stalenessPass_cons_some {root : FPath} {fs : FS} {ke : FPath × Entry}
    {t : List (FPath × Entry)} {fi : FileInfo}
    (hst : statFS fs (resolveKey root ke.1) = some fi) :
    stalenessPass root fs (ke :: t) =
      ⟨ke :: (stalenessPass root fs t).hashes,
        if staleNs fi.mtimeNs ke.2 then
          resolveKey root ke.1 :: (stalenessPass root fs t).tasks
        else (stalenessPass root fs t).tasks,
        resolveKey root ke.1 :: (stalenessPass root fs t).known⟩ := by
  simp only [stalenessPass, hst]

theorem stalenessPass_hashes (root : FPath) (fs : FS) (l : List (FPath × Entry)) :
    (stalenessPass root fs l).hashes =
      l.filter fun ke => (statFS fs (resolveKey root ke.1)).isSome := by
  induction l with
  | nil => rfl
  | cons ke t ih =>
    cases hst : statFS fs (resolveKey root ke.1) with
    | none => rw [stalenessPass_cons_none hst, List.filter_cons, if_neg (by rw [hst]; simp), ih]
    | some fi =>
      rw [stalenessPass_cons_some hst]
      show ke :: (stalenessPass root fs t).hashes = _
      rw [List.filter_cons, if_pos (by rw [hst]; rfl), ih]

theorem mem_stalenessPass_known {root : FPath} {fs : FS} {l : List (FPath × Entry)}
    {p : FPath} : p ∈ (stalenessPass root fs l).known ↔
      ∃ ke ∈ l, resolveKey root ke.1 = p ∧ (statFS fs p).isSome := by
  induction l with
  | nil =>
    constructor
    · intro h
      exact absurd h (List.not_mem_nil p)
    · rintro ⟨ke, hke, _⟩
      exact absurd hke (List.not_mem_nil ke)
  | cons ke t ih =>
    cases hst : statFS fs (resolveKey root ke.1) with
    | none =>
      rw [stalenessPass_cons_none hst, ih]
      constructor
      · rintro ⟨ke', h1, h2, h3⟩
        exact ⟨ke', List.mem_cons_of_mem _ h1, h2, h3⟩
      · rintro ⟨ke', h1, h2, h3⟩
        rcases List.mem_cons.mp h1 with h4 | h4
        · exfalso
          rw [h4] at h2
          rw [← h2, hst] at h3
          simp at h3
        · exact ⟨ke', h4, h2, h3⟩
    | some fi =>
      rw [stalenessPass_cons_some hst]
      show p ∈ resolveKey root ke.1 :: (stalenessPass root fs t).known ↔ _
      rw [List.mem_cons, ih]
      constructor
      · rintro (h1 | h1)
        · refine ⟨ke, List.mem_cons_self _ _, h1.symm, ?_⟩
          rw [h1, hst]
          rfl
        · rcases h1 with ⟨ke', h2, h3, h4⟩
          exact ⟨ke', List.mem_cons_of_mem _ h2, h3, h4⟩
      · rintro ⟨ke', h1, h2, h3⟩
        rcases List.mem_cons.mp h1 with h4 | h4
        · left
          rw [h4] at h2
          exact h2.symm
        · right
          exact ⟨ke', h4, h2, h3⟩

theorem mem_stalenessPass_tasks {root : FPath} {fs : FS} {l : List (FPath × Entry)}
    {p : FPath} : p ∈ (stalenessPass root fs l).tasks ↔
      ∃ ke ∈ l, resolveKey root ke.1 = p ∧
        ∃ fi, statFS fs p = some fi ∧ staleNs fi.mtimeNs ke.2 := by
  induction l with
  | nil =>
    constructor
    · intro h
      exact absurd h (List.not_mem_nil p)
    · rintro ⟨ke, hke, _⟩
      exact absurd hke (List.not_mem_nil ke)
  | cons ke t ih =>
    cases hst : statFS fs (resolveKey root ke.1) with
    | none =>
      rw [stalenessPass_cons_none hst, ih]
      constructor
      · rintro ⟨ke', h1, h2, h3⟩
        exact ⟨ke', List.mem_cons_of_mem _ h1, h2, h3⟩
      · rintro ⟨ke', h1, h2, fi', h3, h4⟩
        rcases List.mem_cons.mp h1 with h5 | h5
        · exfalso
          rw [h5] at h2
          rw [← h2, hst] at h3
          cases h3
        · exact ⟨ke', h5, h2, fi', h3, h4⟩
    | some fi =>
      rw [stalenessPass_cons_some hst]
      show p ∈ (if staleNs fi.mtimeNs ke.2 then
          resolveKey root ke.1 :: (stalenessPass root fs t).tasks
        else (stalenessPass root fs t).tasks) ↔ _
      by_cases hstale : staleNs fi.mtimeNs ke.2
      · rw [if_pos hstale, List.mem_cons, ih]
        constructor
        · rintro (h1 | h1)
          · refine ⟨ke, List.mem_cons_self _ _, h1.symm, fi, ?_, hstale⟩
            rw [h1]
            exact hst
          · rcases h1 with ⟨ke', h2, h3, h4⟩
            exact ⟨ke', List.mem_cons_of_mem _ h2, h3, h4⟩
        · rintro ⟨ke', h1, h2, fi', h3, h4⟩
          rcases List.mem_cons.mp h1 with h5 | h5
          · left
            rw [h5] at h2
            exact h2.symm
          · right
            exact ⟨ke', h5, h2, fi', h3, h4⟩
      · rw [if_neg hstale, ih]
        constructor
        · rintro ⟨ke', h1, h2, h3⟩
          exact ⟨ke', List.mem_cons_of_mem _ h1, h2, h3⟩
        · rintro ⟨ke', h1, h2, fi', h3, h4⟩
          rcases List.mem_cons.mp h1 with h5 | h5
          · exfalso
            rw [h5] at h2
            rw [← h2] at h3
            rw [hst] at h3
            have hfi : fi = fi' := Option.some.inj h3
            rw [h5] at h4
            exact hstale (hfi ▸ h4)
          · exact ⟨ke', h5, h2, fi', h3, h4⟩

theorem readLoop_chunkReadsAux {csize : Nat} (hc : 0 < csize) :
    ∀ fuel content acc, content.length ≤ fuel →
      readLoop (chunkReadsAux fuel csize content) acc = some (acc ++ content) := by
  intro fuel
  induction fuel with
  | zero =>
    intro content acc h
    have h2 : content = [] := List.eq_nil_of_length_eq_zero (Nat.le_zero.mp h)
    subst h2
    simp [chunkReadsAux, readLoop]
  | succ fuel ih =>
    intro content acc h
    cases content with
    | nil => simp [chunkReadsAux, readLoop]
    | cons b bs =>
      simp only [chunkReadsAux]
      rw [if_neg (by simp; omega)]
      simp only [readLoop]
      have hne : (b :: bs).take csize ≠ [] := by
        cases csize with
        | zero => omega
        | succ n => simp [List.take]
      rw [if_neg (by simp [hne])]
      rw [if_neg hne]
      have hlen : ((b :: bs).drop csize).length ≤ fuel := by
        rw [List.length_drop]
        simp only [List.length_cons] at h ⊢
        omega
      rw [ih _ _ hlen]
      rw [List.append_assoc, List.take_append_drop]

theorem readLoop_chunkReads {csize : Nat} (hc : 0 < csize) (content : List Nat)
    (acc : List Nat) : readLoop (chunkReads csize content) acc = some (acc ++ content) :=
  readLoop_chunkReadsAux hc content.length content acc le_rfl

theorem workerRun_mk (H : List Nat → List Nat) (m : ℤ) (reads : List ReadRes) (p : FPath) :
    workerRun H ⟨some m, true, reads⟩ p =
      match readLoop reads [] with
      | none => none
      | some data => some ⟨m + 1000000000, hexBytes (H data), p⟩ := rfl

theorem runWorker_eq_some {H : List Nat → List Nat} {fs : FS} {p : FPath} {fi : FileInfo}
    (hst : statFS fs p = some fi) :
    runWorker H fs p = some ⟨fi.mtimeNs + 1000000000, hexBytes (H fi.content), p⟩ := by
  unfold runWorker fileHandleOf
  rw [hst]
  show workerRun H ⟨some fi.mtimeNs, true, chunkReads 16384 fi.content⟩ p = _
  rw [workerRun_mk, readLoop_chunkReads (by norm_num) fi.content []]
  rw [List.nil_append]

theorem runWorker_eq_none {H : List Nat → List Nat} {fs : FS} {p : FPath}
    (hst : statFS fs p = none) : runWorker H fs p = none := by
  unfold runWorker fileHandleOf
  rw [hst]
  rfl

theorem runWorker_some_inv {H : List Nat → List Nat} {fs : FS} {p : FPath} {r : Entry}
    (h : runWorker H fs p = some r) :
    ∃ fi, statFS fs p = some fi ∧
      r = ⟨fi.mtimeNs + 1000000000, hexBytes (H fi.content), p⟩ := by
  cases hst : statFS fs p with
  | none =>
    rw [runWorker_eq_none hst] at h
    cases h
  | some fi =>
    rw [runWorker_eq_some hst] at h
    exact ⟨fi, rfl, (Option.some.inj h).symm⟩

theorem truncSecNs_margin_le (m : ℤ) :
    m - truncSecNs (m + 1000000000) * 1000000000 ≤ 2 * 1000000000 := by
  unfold truncSecNs
  by_cases h : (0:ℤ) ≤ m + 1000000000
  · rw [if_pos h]
    omega
  · rw [if_neg h]
    omega

theorem not_staleNs_margin (m : ℤ) (s : List Char) (p : FPath) :
    ¬ staleNs m ⟨m + 1000000000, s, p⟩ := by
  intro hcon
  unfold staleNs at hcon
  have h2 := truncSecNs_margin_le m
  simp only at hcon
  omega

theorem truncSecNs_roundTrip_ge {t : ℤ} (h : 0 ≤ t) :
    truncSecNs t ≤ truncSecNs (scaled7 t * 100) := by
  unfold truncSecNs scaled7
  have h2 : (0:ℤ) ≤ (t + 50) / 100 * 100 := by omega
  rw [if_pos h, if_pos h2]
  omega

theorem not_staleNs_roundTrip_margin (m : ℤ) (hm : 0 ≤ m) (s : List Char) (p : FPath) :
    ¬ staleNs m (roundTripEntry ⟨m + 1000000000, s, p⟩) := by
  intro hcon
  unfold staleNs roundTripEntry at hcon
  simp only at hcon
  have h1 : truncSecNs (m + 1000000000) ≤ truncSecNs (scaled7 (m + 1000000000) * 100) :=
    truncSecNs_roundTrip_ge (by omega)
  have h2 := truncSecNs_margin_le m
  omega

theorem staleNs_roundTrip_imp {fiNs : ℤ} {e : Entry} (h : 0 ≤ e.mtimeNs)
    (hs : staleNs fiNs (roundTripEntry e)) : staleNs fiNs e := by
  unfold staleNs roundTripEntry at *
  simp only at hs
  have := truncSecNs_roundTrip_ge h
  omega

theorem readLoop_eq_some_cleanBytes :
    ∀ (rs : List ReadRes) (acc l : List Nat), readLoop rs acc = some l →
      l = acc ++ cleanBytes rs := by
  intro rs
  induction rs with
  | nil =>
    intro acc l h
    simp only [readLoop] at h
    simp [cleanBytes, ← Option.some.inj h]
  | cons r rs ih =>
    intro acc l h
    simp only [readLoop] at h
    by_cases h1 : r.bytes ≠ [] ∧ r.err
    · rw [if_pos h1] at h
      cases h
    · rw [if_neg h1] at h
      by_cases h2 : r.bytes = []
      · rw [if_pos h2] at h
        simp [cleanBytes, h2, ← Option.some.inj h]
      · rw [if_neg h2] at h
        have h3 := ih _ _ h
        have herr : r.err = false := by
          by_cases he : r.err = true
          · exact absurd ⟨h2, he⟩ h1
          · simp at he
            exact he
        simp only [cleanBytes, h2, herr]
        rw [if_neg (by simp)]
        rw [h3, List.append_assoc]

theorem readLoop_eq_none_iff :
    ∀ (rs : List ReadRes) (acc : List Nat), readLoop rs acc = none ↔
      ∃ i : Nat, (∀ j : Nat, j < i → ∃ r : ReadRes, rs[j]? = some r ∧ r.bytes ≠ [] ∧ r.err = false) ∧
        ∃ r : ReadRes, rs[i]? = some r ∧ r.bytes ≠ [] ∧ r.err = true := by
  intro rs
  induction rs with
  | nil =>
    intro acc
    simp only [readLoop]
    constructor
    · intro h
      cases h
    · rintro ⟨i, _, r, hr, _⟩
      simp at hr
  | cons r rs ih =>
    intro acc
    simp only [readLoop]
    by_cases h1 : r.bytes ≠ [] ∧ r.err
    · rw [if_pos h1]
      constructor
      · intro _
        exact ⟨0, fun j hj => absurd hj (Nat.not_lt_zero j), r, List.getElem?_cons_zero, h1.1, h1.2⟩
      · intro _
        rfl
    · rw [if_neg h1]
      by_cases h2 : r.bytes = []
      · rw [if_pos h2]
        constructor
        · intro h
          cases h
        · rintro ⟨i, hpre, r', hr', hb', he'⟩
          exfalso
          cases i with
          | zero =>
            rw [List.getElem?_cons_zero] at hr'
            exact hb' (Option.some.inj hr' ▸ h2)
          | succ k =>
            rcases hpre 0 (Nat.succ_pos k) with ⟨r'', hr'', hb'', _⟩
            rw [List.getElem?_cons_zero] at hr''
            exact hb'' (Option.some.inj hr'' ▸ h2)
      · rw [if_neg h2]
        have herr : r.err = false := by
          by_cases he : r.err = true
          · exact absurd ⟨h2, he⟩ h1
          · simp at he
            exact he
        rw [ih]
        constructor
        · rintro ⟨i, hpre, r', hr', hb', he'⟩
          refine ⟨i + 1, ?_, r', ?_, hb', he'⟩
          · intro j hj
            cases j with
            | zero => exact ⟨r, List.getElem?_cons_zero, h2, herr⟩
            | succ k =>
              rcases hpre k (by omega) with ⟨r'', hr'', hb'', he''⟩
              exact ⟨r'', by rw [List.getElem?_cons_succ]; exact hr'', hb'', he''⟩
          · rw [List.getElem?_cons_succ]
            exact hr'
        · rintro ⟨i, hpre, r', hr', hb', he'⟩
          cases i with
          | zero =>
            rw [List.getElem?_cons_zero] at hr'
            rw [Option.some.inj hr'] at herr
            rw [herr] at he'
            simp at he'
          | succ k =>
            refine ⟨k, ?_, r', ?_, hb', he'⟩
            · intro j hj
              rcases hpre (j + 1) (by omega) with ⟨r'', hr'', hb'', he''⟩
              rw [List.getElem?_cons_succ] at hr''
              exact ⟨r'', hr'', hb'', he''⟩
            · rw [List.getElem?_cons_succ] at hr'
              exact hr'

theorem workerRun_eq_none_iff (H : List Nat → List Nat) (f : FileHandle) (p : FPath) :
    workerRun H f p = none ↔
      f.info = none ∨ f.openOk = false ∨ readLoop f.reads [] = none := by
  rcases f with ⟨info, openOk, reads⟩
  cases info with
  | none =>
    simp [workerRun]
  | some m =>
    cases openOk with
    | false => simp [workerRun]
    | true =>
      rw [workerRun_mk]
      cases hr : readLoop reads [] with
      | none => simp
      | some data => simp

theorem workerRun_some_digest {H : List Nat → List Nat} {f : FileHandle} {p : FPath}
    {e : Entry} (h : workerRun H f p = some e) :
    ∃ m, f.info = some m ∧
      e = ⟨m + 1000000000, hexBytes (H (cleanBytes f.reads)), p⟩ := by
  rcases f with ⟨info, openOk, reads⟩
  cases info with
  | none => cases h
  | some m =>
    cases openOk with
    | false => cases h
    | true =>
      rw [workerRun_mk] at h
      cases hr : readLoop reads [] with
      | none =>
        rw [hr] at h
        cases h
      | some data =>
        rw [hr] at h
        refine ⟨m, rfl, ?_⟩
        have hd : data = cleanBytes reads := by
          have := readLoop_eq_some_cleanBytes reads [] data hr
          simpa using this
        rw [← Option.some.inj h, hd]

theorem mem_runResults {H : List Nat → List Nat} {root : FPath} {fs : FS}
    {l : List (FPath × Entry)} {r : Entry} :
    r ∈ runResults H root fs l ↔ ∃ p ∈ allTasks root fs l, runWorker H fs p = some r := by
  unfold runResults
  exact List.mem_filterMap

theorem mem_scanPass {fs : FS} {known : List FPath} {p : FPath} :
    p ∈ scanPass fs known ↔ ∃ fi, (p, fi) ∈ fs ∧ recognizedExt p ∧ p ∉ known := by
  unfold scanPass
  rw [List.mem_filterMap]
  constructor
  · rintro ⟨pe, hpe, hif⟩
    by_cases h : recognizedExt pe.1 ∧ pe.1 ∉ known
    · rw [if_pos h] at hif
      have heq : pe.1 = p := Option.some.inj hif
      refine ⟨pe.2, ?_, heq ▸ h.1, heq ▸ h.2⟩
      rw [← heq]
      exact (@Prod.mk.eta _ _ pe) ▸ hpe
    · rw [if_neg h] at hif
      cases hif
  · rintro ⟨fi, hmem, hrec, hnk⟩
    exact ⟨(p, fi), hmem, by rw [if_pos ⟨hrec, hnk⟩]⟩

theorem allTasks_stat_isSome {root : FPath} {fs : FS} {l : List (FPath × Entry)} {p : FPath}
    (h : p ∈ allTasks root fs l) : (statFS fs p).isSome := by
  unfold allTasks at h
  rcases List.mem_append.mp h with h1 | h1
  · rcases mem_stalenessPass_tasks.mp h1 with ⟨ke, _, _, fi, hfi, _⟩
    rw [hfi]
    rfl
  · rcases mem_scanPass.mp h1 with ⟨fi, hmem, _, _⟩
    exact statFS_isSome_iff.mpr ⟨fi, hmem⟩

theorem wfFS_stat_prefix {root : FPath} {fs : FS} {p : FPath} (hwf : wfFS root fs)
    (h : (statFS fs p).isSome) : (root ++ ['/']) <+: p := by
  rw [statFS_isSome_iff] at h
  rcases h with ⟨fi, hfi⟩
  exact hwf (p, fi) hfi

theorem runResults_mergeKey_eq {H : List Nat → List Nat} {root : FPath} {fs : FS}
    {l : List (FPath × Entry)} (hwf : wfFS root fs) {r r' : Entry}
    (h : r ∈ runResults H root fs l) (h' : r' ∈ runResults H root fs l)
    (hk : mergeKey root r = mergeKey root r') : r = r' := by
  rcases mem_runResults.mp h with ⟨p, hp, hw⟩
  rcases mem_runResults.mp h' with ⟨p', hp', hw'⟩
  rcases runWorker_some_inv hw with ⟨fi, hfi, rfl⟩
  rcases runWorker_some_inv hw' with ⟨fi', hfi', rfl⟩
  have hp1 : (root ++ ['/']) <+: p := wfFS_stat_prefix hwf (by rw [hfi]; rfl)
  have hp2 : (root ++ ['/']) <+: p' := wfFS_stat_prefix hwf (by rw [hfi']; rfl)
  simp only [mergeKey] at hk
  have hrel : relPath root p = relPath root p' := List.append_cancel_left hk
  have hpp : p = p' := relPath_inj hp1 hp2 hrel
  subst hpp
  rw [hfi] at hfi'
  rw [Option.some.inj hfi']

/-- Claim C2 (amended): the staleness pass records the resolved path as
known exactly for the entries it keeps (stat succeeded); an entry removed
because its path cannot be stat-ed is not recorded.  The directory
scanner still never emits a task for a recorded path. -/
theorem claim2_known_paths_amended (root : FPath) (fs : FS) (l : List (FPath × Entry)) :
    (∀ p : FPath, p ∈ (stalenessPass root fs l).known ↔
      ∃ ke ∈ l, resolveKey root ke.1 = p ∧ (statFS fs p).isSome) ∧
    ∀ p ∈ scanPass fs (stalenessPass root fs l).known, p ∉ (stalenessPass root fs l).known := by
  constructor
  · intro p
    exact mem_stalenessPass_known
  · intro p hp
    rcases mem_scanPass.mp hp with ⟨_, _, _, hnk⟩
    exact hnk

/-- Claim C2, counterexample to the claim as stated: with one cached
entry whose file is missing, the entry is removed and its resolved path
is NOT recorded in the known set (the `continue` at main.go:142 skips
line 148), contradicting "in both cases ... records the entry's resolved
filesystem path in the known-paths set". -/
theorem claim2_counterexample :
    (stalenessPass "r".toList [] [("a.ckpt".toList, ⟨0, [], []⟩)]).hashes = [] ∧
    (stalenessPass "r".toList [] [("a.ckpt".toList, ⟨0, [], []⟩)]).known = [] := by
  decide

theorem claim2_witness :
    "r/a.ckpt".toList ∈ (stalenessPass "r".toList [("r/a.ckpt".toList, ⟨0, []⟩)]
      [("a.ckpt".toList, ⟨0, [], []⟩)]).known :=
  ((claim2_known_paths_amended "r".toList [("r/a.ckpt".toList, ⟨0, []⟩)]
      [("a.ckpt".toList, ⟨0, [], []⟩)]).1 "r/a.ckpt".toList).mpr
    ⟨("a.ckpt".toList, ⟨0, [], []⟩), by decide, by decide, by decide⟩

/-- Claim C3 (amended): the worker errors exactly when the stat fails,
the open fails, or some read returns bytes together with an error before
any zero-byte read (digest updates never fail for a SHA-256 digest); in
the error case no entry is produced.  A read failing with zero bytes is
treated as end-of-stream: the worker then succeeds, and the digest covers
exactly the bytes of the clean reads before that point — the bytes of a
read that also reported an error are never fed to the digest. -/
theorem claim3_worker_error_amended (H : List Nat → List Nat) (f : FileHandle) (p : FPath) :
    (workerRun H f p = none ↔
      f.info = none ∨ f.openOk = false ∨
        ∃ i : Nat, (∀ j : Nat, j < i →
            ∃ r : ReadRes, f.reads[j]? = some r ∧ r.bytes ≠ [] ∧ r.err = false) ∧
          ∃ r : ReadRes, f.reads[i]? = some r ∧ r.bytes ≠ [] ∧ r.err = true) ∧
    ∀ e : Entry, workerRun H f p = some e →
      e.sha256 = hexBytes (H (cleanBytes f.reads)) := by
  constructor
  · rw [workerRun_eq_none_iff, readLoop_eq_none_iff]
  · intro e he
    rcases workerRun_some_digest he with ⟨m, _, he2⟩
    rw [he2]

/-- Claim C3, counterexample to the claim as stated: the second read
fails (returns an error with zero bytes), yet the worker returns a
result entry — the error is swallowed as end-of-stream — contradicting
"returns an error whenever ... any read ... step fails". -/
theorem claim3_counterexample :
    (⟨[], true⟩ : ReadRes) ∈ ([⟨[7], false⟩, ⟨[], true⟩] : List ReadRes) ∧
    workerRun (fun l => l) ⟨some 5, true, [⟨[7], false⟩, ⟨[], true⟩]⟩ ['a'] =
      some ⟨5 + 1000000000, "07".toList, ['a']⟩ := by
  decide

theorem claim3_witness :
    workerRun (fun l => l) ⟨some 5, true, [⟨[7], true⟩]⟩ ['a'] = none :=
  (claim3_worker_error_amended (fun l => l) ⟨some 5, true, [⟨[7], true⟩]⟩ ['a']).1.mpr
    (Or.inr (Or.inr ⟨0, fun j hj => absurd hj (Nat.not_lt_zero j),
      ⟨[7], true⟩, List.getElem?_cons_zero, by decide, rfl⟩))

theorem hexChar_mem_digits {n : Nat} (h : n < 16) :
    hexChar n ∈ "0123456789abcdef".toList := by
  interval_cases n <;> decide

theorem hexBytes_lowercase (bs : List Nat) :
    ∀ c ∈ hexBytes bs, c ∈ "0123456789abcdef".toList := by
  intro c hc
  unfold hexBytes at hc
  rw [List.mem_flatten] at hc
  rcases hc with ⟨l, hl, hcl⟩
  rw [List.mem_map] at hl
  rcases hl with ⟨b, _, rfl⟩
  rcases List.mem_cons.mp hcl with h1 | h1
  · rw [h1]
    exact hexChar_mem_digits (Nat.mod_lt _ (by omega))
  · rcases List.mem_cons.mp h1 with h2 | h2
    · rw [h2]
      exact hexChar_mem_digits (Nat.mod_lt _ (by omega))
    · cases h2

/-- Claim C4: a worker that streams a file's content in bounded chunks
(of any positive size, in particular the 16384 bytes of main.go:58) and
completes without error produces the digest of the file's entire byte
content, rendered in lowercase hexadecimal. -/
theorem claim4_digest_correct (H : List Nat → List Nat) (fi : FileInfo) (p : FPath)
    (csize : Nat) (hc : 0 < csize) :
    workerRun H ⟨some fi.mtimeNs, true, chunkReads csize fi.content⟩ p =
      some ⟨fi.mtimeNs + 1000000000, hexBytes (H fi.content), p⟩ ∧
    ∀ c ∈ hexBytes (H fi.content), c ∈ "0123456789abcdef".toList := by
  constructor
  · rw [workerRun_mk, readLoop_chunkReads hc fi.content []]
    rw [List.nil_append]
  · exact hexBytes_lowercase (H fi.content)

theorem claim4_witness :
    (0:Nat) < 16384 ∧
    (workerRun (fun l => l) ⟨some 0, true, chunkReads 16384 [0, 255]⟩ [] =
        some ⟨(0:ℤ) + 1000000000, hexBytes [0, 255], []⟩ ∧
      ∀ c ∈ hexBytes [0, 255], c ∈ "0123456789abcdef".toList) :=
  ⟨by decide, claim4_digest_correct (fun l => l) ⟨0, [0, 255]⟩ [] 16384 (by decide)⟩

/-- Claim C6: a loaded cache entry whose resolved path cannot be stat-ed
is removed from the cache map immediately, no hashing task is scheduled
for its path, and the entry is absent from the serialized output. -/
theorem claim6_missing_file_removed (H : List Nat → List Nat) (root : FPath) (fs : FS)
    (c : Cache) (k : FPath) (e : Entry) (hwf : wfFS root fs) (hmem : (k, e) ∈ c.hashes)
    (hstat : statFS fs (resolveKey root k) = none) :
    lookupKey (stalenessPass root fs c.hashes).hashes k = none ∧
    resolveKey root k ∉ allTasks root fs c.hashes ∧
    lookupKey (runPipeline H root fs c).hashes k = none := by
  have ha : lookupKey (stalenessPass root fs c.hashes).hashes k = none := by
    rw [lookupKey_eq_none_iff]
    intro ke hke hcon
    rw [stalenessPass_hashes] at hke
    rcases List.mem_filter.mp hke with ⟨_, hsome⟩
    rw [hcon, hstat] at hsome
    simp at hsome
  refine ⟨ha, ?_, ?_⟩
  · intro hcon
    have h2 := allTasks_stat_isSome hcon
    rw [hstat] at h2
    simp at h2
  · have hframe : ∀ r ∈ runResults H root fs c.hashes, mergeKey root r ≠ k := by
      intro r hr hcon
      rcases mem_runResults.mp hr with ⟨p, hp, hw⟩
      rcases runWorker_some_inv hw with ⟨fi, hfi, rfl⟩
      have hpre : (root ++ ['/']) <+: p := wfFS_stat_prefix hwf (by rw [hfi]; rfl)
      have hres : resolveKey root k = p := by
        rw [← hcon]
        exact resolveKey_mergeKey hpre
      rw [hres, hfi] at hstat
      cases hstat
    show lookupKey (mergePass root (stalenessPass root fs c.hashes).hashes
        (runResults H root fs c.hashes)) k = none
    rw [lookupKey_mergePass_of_not_target hframe]
    exact ha

theorem claim6_witness :
    lookupKey (stalenessPass "r".toList [] [("a.ckpt".toList, ⟨0, [], []⟩)]).hashes
        "a.ckpt".toList = none ∧
    resolveKey "r".toList "a.ckpt".toList ∉
      allTasks "r".toList [] [("a.ckpt".toList, ⟨0, [], []⟩)] ∧
    lookupKey (runPipeline (fun l => l) "r".toList []
        ⟨[("a.ckpt".toList, ⟨0, [], []⟩)], none⟩).hashes "a.ckpt".toList = none :=
  claim6_missing_file_removed (fun l => l) "r".toList []
    ⟨[("a.ckpt".toList, ⟨0, [], []⟩)], none⟩ "a.ckpt".toList ⟨0, [], []⟩
    (by decide) (by decide) (by decide)

/-- Claim C10: an input key without the "checkpoint/" prefix is resolved
by joining the key verbatim to the root; when that file exists and is
judged stale, the freshly computed entry is merged under the new key
"checkpoint/" + key (the root-relative path), while the original
unprefixed entry is neither deleted nor overwritten — the output holds
two entries for the same file. -/
theorem claim10_unprefixed_key (H : List Nat → List Nat) (root : FPath) (fs : FS)
    (c : Cache) (k : FPath) (e : Entry) (fi : FileInfo) (hwf : wfFS root fs)
    (hnd : (c.hashes.map Prod.fst).Nodup) (hmem : (k, e) ∈ c.hashes)
    (hnp : ¬ checkpointTag <+: k) (hstat : statFS fs (joinPath root k) = some fi)
    (hstale : staleNs fi.mtimeNs e) :
    resolveKey root k = joinPath root k ∧
    lookupKey (runPipeline H root fs c).hashes k = some e ∧
    lookupKey (runPipeline H root fs c).hashes (checkpointTag ++ k) =
      some ⟨fi.mtimeNs + 1000000000, hexBytes (H fi.content), joinPath root k⟩ ∧
    k ≠ checkpointTag ++ k := by
  have hres : resolveKey root k = joinPath root k := resolveKey_of_not_prefix root hnp
  have hstat' : statFS fs (resolveKey root k) = some fi := by rw [hres]; exact hstat
  refine ⟨hres, ?_, ?_, ?_⟩
  · have hkeep : (k, e) ∈ (stalenessPass root fs c.hashes).hashes := by
      rw [stalenessPass_hashes]
      exact List.mem_filter.mpr ⟨hmem, by rw [hstat']; rfl⟩
    have hnd2 : ((stalenessPass root fs c.hashes).hashes.map Prod.fst).Nodup := by
      rw [stalenessPass_hashes]
      exact hnd.sublist ((List.filter_sublist c.hashes).map Prod.fst)
    have hlk : lookupKey (stalenessPass root fs c.hashes).hashes k = some e :=
      lookupKey_of_nodup_mem hnd2 hkeep
    have hframe : ∀ r ∈ runResults H root fs c.hashes, mergeKey root r ≠ k := by
      intro r hr hcon
      exact hnp (hcon ▸ checkpointTag_prefix_of_mergeKey root r)
    show lookupKey (mergePass root (stalenessPass root fs c.hashes).hashes
        (runResults H root fs c.hashes)) k = some e
    rw [lookupKey_mergePass_of_not_target hframe]
    exact hlk
  · have htask : joinPath root k ∈ allTasks root fs c.hashes := by
      unfold allTasks
      apply List.mem_append.mpr
      left
      exact mem_stalenessPass_tasks.mpr ⟨(k, e), hmem, hres, fi, hstat, hstale⟩
    have hworker : runWorker H fs (joinPath root k) =
        some ⟨fi.mtimeNs + 1000000000, hexBytes (H fi.content), joinPath root k⟩ :=
      runWorker_eq_some hstat
    have hrmem : (⟨fi.mtimeNs + 1000000000, hexBytes (H fi.content), joinPath root k⟩ : Entry) ∈
        runResults H root fs c.hashes :=
      mem_runResults.mpr ⟨joinPath root k, htask, hworker⟩
    have hmk : mergeKey root
        (⟨fi.mtimeNs + 1000000000, hexBytes (H fi.content), joinPath root k⟩ : Entry) =
        checkpointTag ++ k := by
      unfold mergeKey
      rw [show (⟨fi.mtimeNs + 1000000000, hexBytes (H fi.content), joinPath root k⟩ : Entry).path
          = joinPath root k from rfl]
      rw [relPath_joinPath]
    show lookupKey (mergePass root (stalenessPass root fs c.hashes).hashes
        (runResults H root fs c.hashes)) (checkpointTag ++ k) = _
    apply lookupKey_mergePass_of_all_eq
    · exact ⟨_, hrmem, hmk⟩
    · intro r' hr' hk'
      exact runResults_mergeKey_eq hwf hr' hrmem (by rw [hk', hmk])
  · intro hcon
    apply hnp
    rw [hcon]
    exact List.prefix_append _ _

theorem claim10_witness :
    resolveKey "r".toList "a.ckpt".toList = joinPath "r".toList "a.ckpt".toList ∧
    lookupKey (runPipeline (fun l => l) "r".toList
        [("r/a.ckpt".toList, ⟨3000000000, [7]⟩)]
        ⟨[("a.ckpt".toList, ⟨0, "old".toList, []⟩)], none⟩).hashes "a.ckpt".toList =
      some ⟨0, "old".toList, []⟩ ∧
    lookupKey (runPipeline (fun l => l) "r".toList
        [("r/a.ckpt".toList, ⟨3000000000, [7]⟩)]
        ⟨[("a.ckpt".toList, ⟨0, "old".toList, []⟩)], none⟩).hashes
        (checkpointTag ++ "a.ckpt".toList) =
      some ⟨(3000000000:ℤ) + 1000000000, hexBytes [7], joinPath "r".toList "a.ckpt".toList⟩ ∧
    "a.ckpt".toList ≠ checkpointTag ++ "a.ckpt".toList :=
  claim10_unprefixed_key (fun l => l) "r".toList [("r/a.ckpt".toList, ⟨3000000000, [7]⟩)]
    ⟨[("a.ckpt".toList, ⟨0, "old".toList, []⟩)], none⟩ "a.ckpt".toList ⟨0, "old".toList, []⟩
    ⟨3000000000, [7]⟩ (by decide) (by decide) (by decide) (by decide) (by decide) (by decide)

/-- Claim C1 (amended): for a cache entry whose resolved path stats
successfully, a rehash task is scheduled if and only if the on-disk
modification time exceeds the stored modTime truncated to whole seconds
by more than 2 seconds — a signed, one-sided comparison
(`fi.ModTime().Sub(time.Unix(int64(e.MTime), 0)) > time.Second*2`), not
an absolute difference, and the +1 s margin is not explicitly reversed
(only truncation toward zero).  When the comparison does not trigger,
the entry is kept and its original digest is preserved in the output. -/
theorem claim1_staleness_amended (H : List Nat → List Nat) (root : FPath) (fs : FS)
    (c : Cache) (k : FPath) (e : Entry) (fi : FileInfo) (hwf : wfFS root fs)
    (hnd : (c.hashes.map Prod.fst).Nodup) (hmem : (k, e) ∈ c.hashes)
    (hstat : statFS fs (resolveKey root k) = some fi)
    (hinj : ∀ ke ∈ c.hashes, resolveKey root ke.1 = resolveKey root k → ke.1 = k) :
    (resolveKey root k ∈ (stalenessPass root fs c.hashes).tasks ↔
      2 * 1000000000 < fi.mtimeNs - truncSecNs e.mtimeNs * 1000000000) ∧
    (¬ staleNs fi.mtimeNs e →
      lookupKey (runPipeline H root fs c).hashes k = some e) := by
  have hval : ∀ ke ∈ c.hashes, ke.1 = k → ke.2 = e := by
    intro ke hke hk1
    have h1 : lookupKey c.hashes k = some e := lookupKey_of_nodup_mem hnd hmem
    have h2 : lookupKey c.hashes k = some ke.2 :=
      lookupKey_of_nodup_mem hnd (by rw [← hk1, Prod.mk.eta]; exact hke)
    rw [h1] at h2
    exact (Option.some.inj h2).symm
  constructor
  · constructor
    · intro htask
      rcases mem_stalenessPass_tasks.mp htask with ⟨ke', hke', hres, fi', hfi', hstale'⟩
      have hk1 : ke'.1 = k := hinj ke' hke' hres
      have hk2 : ke'.2 = e := hval ke' hke' hk1
      rw [hstat] at hfi'
      have hfi2 : fi' = fi := (Option.some.inj hfi').symm
      rw [hk2, hfi2] at hstale'
      exact hstale'
    · intro hlt
      exact mem_stalenessPass_tasks.mpr ⟨(k, e), hmem, rfl, fi, hstat, hlt⟩
  · intro hfresh
    have hkeep : (k, e) ∈ (stalenessPass root fs c.hashes).hashes := by
      rw [stalenessPass_hashes]
      exact List.mem_filter.mpr ⟨hmem, by rw [hstat]; rfl⟩
    have hnd2 : ((stalenessPass root fs c.hashes).hashes.map Prod.fst).Nodup := by
      rw [stalenessPass_hashes]
      exact hnd.sublist ((List.filter_sublist c.hashes).map Prod.fst)
    have hlk : lookupKey (stalenessPass root fs c.hashes).hashes k = some e :=
      lookupKey_of_nodup_mem hnd2 hkeep
    have hknown : resolveKey root k ∈ (stalenessPass root fs c.hashes).known :=
      mem_stalenessPass_known.mpr ⟨(k, e), hmem, rfl, by rw [hstat]; rfl⟩
    have hframe : ∀ r ∈ runResults H root fs c.hashes, mergeKey root r ≠ k := by
      intro r hr hcon
      rcases mem_runResults.mp hr with ⟨p, hp, hw⟩
      rcases runWorker_some_inv hw with ⟨fi'', hfi'', rfl⟩
      have hpre : (root ++ ['/']) <+: p := wfFS_stat_prefix hwf (by rw [hfi'']; rfl)
      have hresk : resolveKey root k = p := by
        rw [← hcon]
        exact resolveKey_mergeKey hpre
      unfold allTasks at hp
      rcases List.mem_append.mp hp with h1 | h1
      · rcases mem_stalenessPass_tasks.mp h1 with ⟨ke', hke', hres', fi', hfi', hstale'⟩
        have hk1 : ke'.1 = k := hinj ke' hke' (by rw [hres', hresk])
        have hk2 : ke'.2 = e := hval ke' hke' hk1
        rw [← hresk, hstat] at hfi'
        have hfi2 : fi' = fi := (Option.some.inj hfi').symm
        rw [hk2, hfi2] at hstale'
        exact hfresh hstale'
      · rcases mem_scanPass.mp h1 with ⟨_, _, _, hnk⟩
        rw [← hresk] at hnk
        exact hnk hknown
    show lookupKey (mergePass root (stalenessPass root fs c.hashes).hashes
        (runResults H root fs c.hashes)) k = some e
    rw [lookupKey_mergePass_of_not_target hframe]
    exact hlk

/-- Claim C1, counterexample to the claim as stated: the file's on-disk
time is 50 s, the stored modTime 100 s; the absolute difference to the
margin-reversed stored time (99 s) is 49 s > 2 s, so the claim demands a
rehash — but the code's signed comparison 50 s - 100 s = -50 s is not
greater than 2 s, and no task is scheduled. -/
theorem claim1_counterexample :
    2 * 1000000000 < |(50000000000 : ℤ) - (100000000000 - 1000000000)| ∧
    (stalenessPass "r".toList [("r/a.ckpt".toList, ⟨50000000000, []⟩)]
      [("a.ckpt".toList, ⟨100000000000, [], []⟩)]).tasks = [] := by
  constructor
  · decide
  · decide

theorem claim1_witness :
    ((resolveKey "r".toList "a.ckpt".toList ∈
        (stalenessPass "r".toList [("r/a.ckpt".toList, ⟨100000000000, [7]⟩)]
          [("a.ckpt".toList, ⟨101000000000, "d".toList, []⟩)]).tasks) ↔
      2 * 1000000000 < (100000000000 : ℤ) - truncSecNs 101000000000 * 1000000000) ∧
    (¬ staleNs 100000000000 ⟨101000000000, "d".toList, []⟩ →
      lookupKey (runPipeline (fun l => l) "r".toList
          [("r/a.ckpt".toList, ⟨100000000000, [7]⟩)]
          ⟨[("a.ckpt".toList, ⟨101000000000, "d".toList, []⟩)], none⟩).hashes
        "a.ckpt".toList = some ⟨101000000000, "d".toList, []⟩) :=
  claim1_staleness_amended (fun l => l) "r".toList
    [("r/a.ckpt".toList, ⟨100000000000, [7]⟩)]
    ⟨[("a.ckpt".toList, ⟨101000000000, "d".toList, []⟩)], none⟩
    "a.ckpt".toList ⟨101000000000, "d".toList, []⟩ ⟨100000000000, [7]⟩
    (by decide) (by decide) (by decide) (by decide) (by decide)

/-- Claim C7: a file on disk under the root with a recognized extension
(case-insensitive `.safetensors`/`.ckpt`) to which no input-cache key
resolves appears in the output under `"checkpoint/" +` its root-relative
path with the reference digest of its bytes; a file with any other
extension (likewise absent from the input cache) never appears under its
checkpoint key. -/
theorem claim7_new_file_discovery (H : List Nat → List Nat) (root : FPath) (fs : FS)
    (c : Cache) (p : FPath) (fi : FileInfo) (hwf : wfFS root fs)
    (hstat : statFS fs p = some fi)
    (habs : ∀ ke ∈ c.hashes, resolveKey root ke.1 ≠ p) :
    (recognizedExt p = true →
      lookupKey (runPipeline H root fs c).hashes (checkpointTag ++ relPath root p) =
        some ⟨fi.mtimeNs + 1000000000, hexBytes (H fi.content), p⟩) ∧
    (recognizedExt p = false →
      lookupKey (runPipeline H root fs c).hashes (checkpointTag ++ relPath root p) = none) := by
  have hpre : (root ++ ['/']) <+: p := wfFS_stat_prefix hwf (by rw [hstat]; rfl)
  have hresolve : resolveKey root (checkpointTag ++ relPath root p) = p := by
    rw [resolveKey_checkpoint, joinPath_relPath hpre]
  have hkeynotin : lookupKey (stalenessPass root fs c.hashes).hashes
      (checkpointTag ++ relPath root p) = none := by
    rw [lookupKey_eq_none_iff]
    intro ke hke hcon
    rw [stalenessPass_hashes] at hke
    rcases List.mem_filter.mp hke with ⟨hmem, _⟩
    apply habs ke hmem
    rw [hcon, hresolve]
  constructor
  · intro hrec
    have hnotknown : p ∉ (stalenessPass root fs c.hashes).known := by
      intro hcon
      rcases mem_stalenessPass_known.mp hcon with ⟨ke, hke, hres, _⟩
      exact habs ke hke hres
    have htask : p ∈ allTasks root fs c.hashes := by
      unfold allTasks
      apply List.mem_append.mpr
      right
      exact mem_scanPass.mpr ⟨fi, statFS_eq_some_mem hstat, hrec, hnotknown⟩
    have hrmem : (⟨fi.mtimeNs + 1000000000, hexBytes (H fi.content), p⟩ : Entry) ∈
        runResults H root fs c.hashes :=
      mem_runResults.mpr ⟨p, htask, runWorker_eq_some hstat⟩
    have hmk : mergeKey root (⟨fi.mtimeNs + 1000000000, hexBytes (H fi.content), p⟩ : Entry) =
        checkpointTag ++ relPath root p := rfl
    show lookupKey (mergePass root (stalenessPass root fs c.hashes).hashes
        (runResults H root fs c.hashes)) (checkpointTag ++ relPath root p) = _
    apply lookupKey_mergePass_of_all_eq
    · exact ⟨_, hrmem, hmk⟩
    · intro r' hr' hk'
      exact runResults_mergeKey_eq hwf hr' hrmem (by rw [hk', hmk])
  · intro hrec
    have hframe : ∀ r ∈ runResults H root fs c.hashes,
        mergeKey root r ≠ checkpointTag ++ relPath root p := by
      intro r hr hcon
      rcases mem_runResults.mp hr with ⟨p', hp', hw⟩
      rcases runWorker_some_inv hw with ⟨fi', hfi', rfl⟩
      have hpre' : (root ++ ['/']) <+: p' := wfFS_stat_prefix hwf (by rw [hfi']; rfl)
      simp only [mergeKey] at hcon
      have hrel : relPath root p' = relPath root p := List.append_cancel_left hcon
      have hpp : p' = p := relPath_inj hpre' hpre hrel
      subst hpp
      unfold allTasks at hp'
      rcases List.mem_append.mp hp' with h1 | h1
      · rcases mem_stalenessPass_tasks.mp h1 with ⟨ke, hke, hres, _⟩
        exact habs ke hke hres
      · rcases mem_scanPass.mp h1 with ⟨_, _, hrec', _⟩
        rw [hrec] at hrec'
        cases hrec'
    show lookupKey (mergePass root (stalenessPass root fs c.hashes).hashes
        (runResults H root fs c.hashes)) (checkpointTag ++ relPath root p) = none
    rw [lookupKey_mergePass_of_not_target hframe]
    exact hkeynotin

theorem claim7_witness :
    ((recognizedExt "r/a.ckpt".toList = true →
      lookupKey (runPipeline (fun l => l) "r".toList [("r/a.ckpt".toList, ⟨0, [7]⟩)]
          ⟨[], none⟩).hashes (checkpointTag ++ relPath "r".toList "r/a.ckpt".toList) =
        some ⟨(0:ℤ) + 1000000000, hexBytes [7], "r/a.ckpt".toList⟩) ∧
    (recognizedExt "r/a.ckpt".toList = false →
      lookupKey (runPipeline (fun l => l) "r".toList [("r/a.ckpt".toList, ⟨0, [7]⟩)]
          ⟨[], none⟩).hashes (checkpointTag ++ relPath "r".toList "r/a.ckpt".toList) = none)) :=
  claim7_new_file_discovery (fun l => l) "r".toList [("r/a.ckpt".toList, ⟨0, [7]⟩)]
    ⟨[], none⟩ "r/a.ckpt".toList ⟨0, [7]⟩ (by decide) (by decide) (by decide)

theorem digitChar_isDigit {d : Nat} (h : d < 10) : (Char.ofNat (48 + d)).isDigit = true := by
  interval_cases d <;> decide

theorem natCharsAux_digits : ∀ (fuel n : Nat), ∀ ch ∈ natCharsAux fuel n, ch.isDigit = true := by
  intro fuel
  induction fuel with
  | zero =>
    intro n ch hch
    cases hch
  | succ fuel ih =>
    intro n ch hch
    simp only [natCharsAux] at hch
    by_cases h : n < 10
    · rw [if_pos h] at hch
      rw [List.mem_singleton.mp hch]
      exact digitChar_isDigit h
    · rw [if_neg h] at hch
      rcases List.mem_append.mp hch with h1 | h1
      · exact ih _ _ h1
      · rw [List.mem_singleton.mp h1]
        exact digitChar_isDigit (Nat.mod_lt _ (by omega))

theorem natCharsAux_ne_nil (fuel n : Nat) (h : 0 < fuel) : natCharsAux fuel n ≠ [] := by
  cases fuel with
  | zero => omega
  | succ fuel =>
    simp only [natCharsAux]
    by_cases h2 : n < 10
    · rw [if_pos h2]
      simp
    · rw [if_neg h2]
      simp

theorem natCharsAux_length_le : ∀ (fuel k n : Nat), n < 10 ^ k → 1 ≤ k →
    (natCharsAux fuel n).length ≤ k := by
  intro fuel
  induction fuel with
  | zero =>
    intro k n _ _
    simp [natCharsAux]
  | succ fuel ih =>
    intro k n hn hk
    simp only [natCharsAux]
    by_cases h : n < 10
    · rw [if_pos h]
      simpa using hk
    · rw [if_neg h]
      rw [List.length_append]
      have hk2 : 2 ≤ k := by
        by_contra hcon
        have hk1 : k = 1 := by omega
        rw [hk1] at hn
        simp at hn
        omega
      have hpow : 10 ^ k = 10 ^ (k - 1) * 10 := by
        rw [← pow_succ]
        congr 1
        omega
      have hdiv : n / 10 < 10 ^ (k - 1) := by
        rw [Nat.div_lt_iff_lt_mul (by omega)]
        omega
      have hrec := ih (k - 1) (n / 10) hdiv (by omega)
      simp only [List.length_singleton]
      omega

theorem padFrac_length {m : Nat} (h : m < 10000000) : (padFrac m).length = 7 := by
  unfold padFrac
  rw [List.length_append, List.length_replicate]
  have hlen : (natChars m).length ≤ 7 := by
    unfold natChars
    exact natCharsAux_length_le (m + 1) 7 m (by omega) (by omega)
  omega

theorem padFrac_digits (m : Nat) : ∀ ch ∈ padFrac m, ch.isDigit = true := by
  intro ch hch
  unfold padFrac at hch
  rcases List.mem_append.mp hch with h1 | h1
  · rw [List.eq_of_mem_replicate h1]
    decide
  · exact natCharsAux_digits _ _ ch h1

/-- Claim C9: every entry a successful worker produces stores the file's
modification time plus the fixed one-second margin, and `%.7f` rendering
is plain fixed-point with exactly 7 fractional digits — a digit-or-sign
integer part, one dot, 7 digits, and never a scientific-notation
exponent character. -/
theorem claim9_mtime_margin_and_render (H : List Nat → List Nat) :
    (∀ (f : FileHandle) (p : FPath) (e : Entry), workerRun H f p = some e →
      ∃ m : ℤ, f.info = some m ∧ e.mtimeNs = m + 1000000000) ∧
    ∀ t : ℤ, ∃ ipart frac : List Char,
      renderMTime t = ipart ++ '.' :: frac ∧
      frac.length = 7 ∧ (∀ ch ∈ frac, ch.isDigit = true) ∧
      ipart ≠ [] ∧ (∀ ch ∈ ipart, ch.isDigit = true ∨ ch = '-') ∧
      ∀ ch ∈ renderMTime t, ch ≠ 'e' ∧ ch ≠ 'E' := by
  constructor
  · intro f p e he
    rcases workerRun_some_digest he with ⟨m, hm, he2⟩
    exact ⟨m, hm, by rw [he2]⟩
  · intro t
    have hbody : ∀ n : Nat, ∃ ipart frac : List Char,
        renderFixed7 n = ipart ++ '.' :: frac ∧ frac.length = 7 ∧
        (∀ ch ∈ frac, ch.isDigit = true) ∧ ipart ≠ [] ∧
        ∀ ch ∈ ipart, ch.isDigit = true := by
      intro n
      refine ⟨natChars (n / 10000000), padFrac (n % 10000000), rfl,
        padFrac_length (Nat.mod_lt _ (by omega)), padFrac_digits _,
        natCharsAux_ne_nil _ _ (by omega), fun ch hch => natCharsAux_digits _ _ ch hch⟩
    have hnoexp : ∀ (ipart frac : List Char), frac.length = 7 →
        (∀ ch ∈ frac, ch.isDigit = true) → (∀ ch ∈ ipart, ch.isDigit = true ∨ ch = '-') →
        ∀ ch ∈ ipart ++ '.' :: frac, ch ≠ 'e' ∧ ch ≠ 'E' := by
      intro ipart frac _ hfrac hipart ch hch
      have hnd : ch.isDigit = true ∨ ch = '-' ∨ ch = '.' := by
        rcases List.mem_append.mp hch with h1 | h1
        · rcases hipart ch h1 with h2 | h2
          · exact Or.inl h2
          · exact Or.inr (Or.inl h2)
        · rcases List.mem_cons.mp h1 with h2 | h2
          · exact Or.inr (Or.inr h2)
          · exact Or.inl (hfrac ch h2)
      constructor
      · intro hcon
        rcases hnd with h2 | h2 | h2
        · rw [hcon] at h2
          cases h2
        · rw [hcon] at h2
          cases h2
        · rw [hcon] at h2
          cases h2
      · intro hcon
        rcases hnd with h2 | h2 | h2
        · rw [hcon] at h2
          cases h2
        · rw [hcon] at h2
          cases h2
        · rw [hcon] at h2
          cases h2
    unfold renderMTime
    by_cases hneg : scaled7 t < 0
    · rw [if_pos hneg]
      rcases hbody (scaled7 t).natAbs with ⟨ipart, frac, heq, hlen, hfrac, hne, hdig⟩
      refine ⟨'-' :: ipart, frac, by rw [heq]; rfl, hlen, hfrac, by simp, ?_, ?_⟩
      · intro ch hch
        rcases List.mem_cons.mp hch with h1 | h1
        · exact Or.inr h1
        · exact Or.inl (hdig ch h1)
      · rw [heq]
        intro ch hch
        refine hnoexp ('-' :: ipart) frac hlen hfrac ?_ ch ?_
        · intro ch' hch'
          rcases List.mem_cons.mp hch' with h1 | h1
          · exact Or.inr h1
          · exact Or.inl (hdig ch' h1)
        · simpa using hch
    · rw [if_neg hneg]
      rcases hbody (scaled7 t).toNat with ⟨ipart, frac, heq, hlen, hfrac, hne, hdig⟩
      refine ⟨ipart, frac, heq, hlen, hfrac, hne, fun ch hch => Or.inl (hdig ch hch), ?_⟩
      rw [heq]
      exact hnoexp ipart frac hlen hfrac (fun ch hch => Or.inl (hdig ch hch))

theorem claim9_witness :
    (∀ (f : FileHandle) (p : FPath) (e : Entry), workerRun (fun l => l) f p = some e →
      ∃ m : ℤ, f.info = some m ∧ e.mtimeNs = m + 1000000000) ∧
    ∀ t : ℤ, ∃ ipart frac : List Char,
      renderMTime t = ipart ++ '.' :: frac ∧
      frac.length = 7 ∧ (∀ ch ∈ frac, ch.isDigit = true) ∧
      ipart ≠ [] ∧ (∀ ch ∈ ipart, ch.isDigit = true ∨ ch = '-') ∧
      ∀ ch ∈ renderMTime t, ch ≠ 'e' ∧ ch ≠ 'E' :=
  claim9_mtime_margin_and_render (fun l => l)

/-- Claim C8 (amended): the pipeline never writes to the secondary
mapping — it is passed through at the data level; the serialized output
carries a `hashes-addnet` field exactly when the input's decoded mapping
was present AND nonempty.  A mapping absent from the input is never
synthesized, and — against the claim as stated — a present-but-empty
mapping is also dropped by the `omitempty` struct tag rather than
reproduced. -/
theorem claim8_addnet_amended (H : List Nat → List Nat) (root : FPath) (fs : FS) (c : Cache) :
    (runPipeline H root fs c).hashesAddnet = c.hashesAddnet ∧
    (∀ ke t, c.hashesAddnet = some (ke :: t) →
      serializeCache (runPipeline H root fs c) =
        "\x7b\"hashes\": ".toList ++ renderObj (runPipeline H root fs c).hashes ++
          (", \"hashes-addnet\": ".toList ++ renderObj (ke :: t)) ++ ['\x7d']) ∧
    (c.hashesAddnet = none ∨ c.hashesAddnet = some [] →
      serializeCache (runPipeline H root fs c) =
        "\x7b\"hashes\": ".toList ++ renderObj (runPipeline H root fs c).hashes ++ ['\x7d']) := by
  refine ⟨rfl, ?_, ?_⟩
  · intro ke t hsome
    unfold serializeCache
    rw [show (runPipeline H root fs c).hashesAddnet = c.hashesAddnet from rfl, hsome]
    rw [show renderAddnet (some (ke :: t)) =
      ", \"hashes-addnet\": ".toList ++ renderObj (ke :: t) from rfl]
  · intro habs
    unfold serializeCache
    rw [show (runPipeline H root fs c).hashesAddnet = c.hashesAddnet from rfl]
    rcases habs with h | h
    · rw [h]
      simp [renderAddnet]
    · rw [h]
      simp [renderAddnet]

/-- Claim C8, counterexample to the claim as stated: a secondary mapping
present in the input but empty is NOT reproduced — `omitempty` omits the
field, making the output byte-identical to a run whose input had no such
field at all. -/
theorem claim8_counterexample :
    (⟨[], some []⟩ : Cache).hashesAddnet ≠ none ∧
    serializeCache (runPipeline (fun l => l) "r".toList [] ⟨[], some []⟩) =
      serializeCache (runPipeline (fun l => l) "r".toList [] ⟨[], none⟩) := by
  constructor
  · decide
  · decide

theorem claim8_witness :
    serializeCache (runPipeline (fun l => l) "r".toList []
        ⟨[], some [("k".toList, ⟨0, [], []⟩)]⟩) =
      "\x7b\"hashes\": ".toList ++
        renderObj (runPipeline (fun l => l) "r".toList []
          ⟨[], some [("k".toList, ⟨0, [], []⟩)]⟩).hashes ++
        (", \"hashes-addnet\": ".toList ++ renderObj [("k".toList, ⟨0, [], []⟩)]) ++
        ['\x7d'] :=
  (claim8_addnet_amended (fun l => l) "r".toList []
    ⟨[], some [("k".toList, ⟨0, [], []⟩)]⟩).2.1 ("k".toList, ⟨0, [], []⟩) [] rfl

theorem scaled7_idem (t : ℤ) : scaled7 (scaled7 t * 100) = scaled7 t := by
  unfold scaled7
  omega

theorem renderMTime_eq_of_scaled {t t' : ℤ} (h : scaled7 t = scaled7 t') :
    renderMTime t = renderMTime t' := by
  unfold renderMTime
  rw [h]

theorem renderEntryJ_roundTrip (e : Entry) :
    renderEntryJ (roundTripEntry e) = renderEntryJ e := by
  unfold renderEntryJ roundTripEntry
  rw [renderMTime_eq_of_scaled (scaled7_idem e.mtimeNs)]

theorem insertSorted_map_congr {x y : FPath × Entry} {l l' : List (FPath × Entry)}
    (hxy : renderPairKV x = renderPairKV y)
    (hll : l.map renderPairKV = l'.map renderPairKV) :
    (insertSorted x l).map renderPairKV = (insertSorted y l').map renderPairKV := by
  induction l generalizing l' with
  | nil =>
    have hl' : l' = [] := by
      rcases l' with _ | ⟨b, t'⟩
      · rfl
      · cases hll
    subst hl'
    simp [insertSorted, hxy]
  | cons a t ih =>
    rcases l' with _ | ⟨b, t'⟩
    · cases hll
    · simp only [List.map_cons, List.cons.injEq] at hll
      have hkey : x.1 = y.1 := congrArg (Prod.fst : FPath × List Char → FPath) hxy
      have hkeya : a.1 = b.1 := congrArg (Prod.fst : FPath × List Char → FPath) hll.1
      simp only [insertSorted]
      by_cases hk : keyLe x.1 a.1
      · rw [if_pos hk, if_pos (by rw [← hkey, ← hkeya]; exact hk)]
        simp only [List.map_cons]
        rw [hxy, hll.1, hll.2]
      · rw [if_neg hk, if_neg (by rw [← hkey, ← hkeya]; exact hk)]
        simp only [List.map_cons]
        rw [hll.1, ih hll.2]

theorem sortByKey_map_congr {l l' : List (FPath × Entry)}
    (h : l.map renderPairKV = l'.map renderPairKV) :
    (sortByKey l).map renderPairKV = (sortByKey l').map renderPairKV := by
  induction l generalizing l' with
  | nil =>
    have hl' : l' = [] := by
      rcases l' with _ | ⟨b, t'⟩
      · rfl
      · cases h
    subst hl'
    rfl
  | cons a t ih =>
    rcases l' with _ | ⟨b, t'⟩
    · cases h
    · simp only [List.map_cons, List.cons.injEq] at h
      simp only [sortByKey]
      exact insertSorted_map_congr h.1 (ih h.2)

theorem renderPairs_congr {l l' : List (FPath × Entry)}
    (h : l.map renderPairKV = l'.map renderPairKV) :
    renderPairs l = renderPairs l' := by
  induction l generalizing l' with
  | nil =>
    have hl' : l' = [] := by
      rcases l' with _ | ⟨b, t'⟩
      · rfl
      · cases h
    subst hl'
    rfl
  | cons a t ih =>
    rcases l' with _ | ⟨b, t'⟩
    · cases h
    · simp only [List.map_cons, List.cons.injEq] at h
      have hkey : a.1 = b.1 := congrArg (Prod.fst : FPath × List Char → FPath) h.1
      have hrend : renderEntryJ a.2 = renderEntryJ b.2 :=
        congrArg (Prod.snd : FPath × List Char → List Char) h.1
      rcases t with _ | ⟨c2, t2⟩
      · have ht' : t' = [] := by
          rcases t' with _ | ⟨d, td⟩
          · rfl
          · cases h.2
        subst ht'
        have e1 : renderPairs [a] = '"' :: a.1 ++ "\": ".toList ++ renderEntryJ a.2 := rfl
        have e2 : renderPairs [b] = '"' :: b.1 ++ "\": ".toList ++ renderEntryJ b.2 := rfl
        rw [e1, e2, hkey, hrend]
      · rcases t' with _ | ⟨d, td⟩
        · cases h.2
        · have e1 : renderPairs (a :: c2 :: t2) = '"' :: a.1 ++ "\": ".toList ++
            renderEntryJ a.2 ++ ", ".toList ++ renderPairs (c2 :: t2) := rfl
          have e2 : renderPairs (b :: d :: td) = '"' :: b.1 ++ "\": ".toList ++
            renderEntryJ b.2 ++ ", ".toList ++ renderPairs (d :: td) := rfl
          rw [e1, e2, hkey, hrend, ih h.2]

theorem renderObj_congr {l l' : List (FPath × Entry)}
    (h : l.map renderPairKV = l'.map renderPairKV) : renderObj l = renderObj l' := by
  unfold renderObj
  rw [renderPairs_congr (sortByKey_map_congr h)]

theorem mapRender_roundTrip (l : List (FPath × Entry)) :
    (l.map fun ke => (ke.1, roundTripEntry ke.2)).map renderPairKV = l.map renderPairKV := by
  induction l with
  | nil => rfl
  | cons a t ih =>
    simp only [List.map_cons, ih]
    unfold renderPairKV
    rw [renderEntryJ_roundTrip]

theorem mapRender_insertKey_of_lookup {l : List (FPath × Entry)} {k : FPath} {v v' : Entry}
    (hl : lookupKey l k = some v') (hr : renderEntryJ v' = renderEntryJ v) :
    (insertKey l k v).map renderPairKV = l.map renderPairKV := by
  induction l with
  | nil => cases hl
  | cons kv t ih =>
    simp only [lookupKey] at hl
    simp only [insertKey]
    by_cases hk : kv.1 = k
    · rw [if_pos hk] at hl
      rw [if_pos hk]
      simp only [List.map_cons]
      unfold renderPairKV
      rw [← Option.some.inj hl] at hr
      rw [hk, hr]
    · rw [if_neg hk] at hl
      rw [if_neg hk]
      simp only [List.map_cons]
      rw [ih hl]

theorem mapRender_mergePass {root : FPath} {hs : List (FPath × Entry)} {rs : List Entry}
    (h : ∀ r ∈ rs, ∃ v', lookupKey hs (mergeKey root r) = some v' ∧
      renderEntryJ v' = renderEntryJ r) :
    (mergePass root hs rs).map renderPairKV = hs.map renderPairKV := by
  induction rs generalizing hs with
  | nil => rfl
  | cons r rs ih =>
    simp only [mergePass]
    rcases h r (List.mem_cons_self _ _) with ⟨v', hv', hr⟩
    have hins : (insertKey hs (mergeKey root r) r).map renderPairKV =
        hs.map renderPairKV := mapRender_insertKey_of_lookup hv' hr
    rw [← hins]
    apply ih
    intro r' hr' 
    by_cases hk : mergeKey root r' = mergeKey root r
    · refine ⟨r, ?_, ?_⟩
      · rw [hk]
        exact lookupKey_insertKey_self _ _ _
      · rcases h r' (List.mem_cons_of_mem _ hr') with ⟨v'', hv'', hr''⟩
        rw [hk, hv'] at hv''
        rw [← hr'', ← Option.some.inj hv'', hr]
    · rcases h r' (List.mem_cons_of_mem _ hr') with ⟨v'', hv'', hr''⟩
      refine ⟨v'', ?_, hr''⟩
      rw [lookupKey_insertKey_ne _ hk]
      exact hv''

theorem lookupKey_run_mergeKey {H : List Nat → List Nat} {root : FPath} {fs : FS} {c : Cache}
    (hwf : wfFS root fs) {r : Entry} (hr : r ∈ runResults H root fs c.hashes) :
    lookupKey (runPipeline H root fs c).hashes (mergeKey root r) = some r := by
  show lookupKey (mergePass root (stalenessPass root fs c.hashes).hashes
      (runResults H root fs c.hashes)) (mergeKey root r) = some r
  apply lookupKey_mergePass_of_all_eq
  · exact ⟨r, hr, rfl⟩
  · intro r' hr' hk
    exact runResults_mergeKey_eq hwf hr' hr hk

theorem mem_run_hashes {H : List Nat → List Nat} {root : FPath} {fs : FS} {c : Cache}
    {ke : FPath × Entry} (h : ke ∈ (runPipeline H root fs c).hashes) :
    (ke ∈ c.hashes ∧ (statFS fs (resolveKey root ke.1)).isSome) ∨
      ∃ r ∈ runResults H root fs c.hashes, ke = (mergeKey root r, r) := by
  have h2 : ke ∈ mergePass root (stalenessPass root fs c.hashes).hashes
      (runResults H root fs c.hashes) := h
  rcases mem_mergePass h2 with h3 | h3
  · rw [stalenessPass_hashes] at h3
    rcases List.mem_filter.mp h3 with ⟨h4, h5⟩
    exact Or.inl ⟨h4, h5⟩
  · exact Or.inr h3

theorem run_stat_isSome {H : List Nat → List Nat} {root : FPath} {fs : FS} {c : Cache}
    {ke : FPath × Entry} (hwf : wfFS root fs) (h : ke ∈ (runPipeline H root fs c).hashes) :
    (statFS fs (resolveKey root ke.1)).isSome := by
  rcases mem_run_hashes h with ⟨_, h2⟩ | ⟨r, hr, rfl⟩
  · exact h2
  · rcases mem_runResults.mp hr with ⟨p, hp, hw⟩
    rcases runWorker_some_inv hw with ⟨fi, hfi, rfl⟩
    have hpre : (root ++ ['/']) <+: p := wfFS_stat_prefix hwf (by rw [hfi]; rfl)
    show (statFS fs (resolveKey root
      (mergeKey root ⟨fi.mtimeNs + 1000000000, hexBytes (H fi.content), p⟩))).isSome
    rw [resolveKey_mergeKey hpre]
    rw [hfi]
    rfl

theorem run_nonneg {H : List Nat → List Nat} {root : FPath} {fs : FS} {c : Cache}
    {ke : FPath × Entry} (hnnf : nonnegFS fs) (hnnc : nonnegTimes c)
    (h : ke ∈ (runPipeline H root fs c).hashes) : 0 ≤ ke.2.mtimeNs := by
  rcases mem_run_hashes h with ⟨h2, _⟩ | ⟨r, hr, rfl⟩
  · exact hnnc ke h2
  · rcases mem_runResults.mp hr with ⟨p, hp, hw⟩
    rcases runWorker_some_inv hw with ⟨fi, hfi, rfl⟩
    have h3 : 0 ≤ fi.mtimeNs := hnnf (p, fi) (statFS_eq_some_mem hfi)
    show 0 ≤ fi.mtimeNs + 1000000000
    omega

theorem lookupKey_map_roundTrip (l : List (FPath × Entry)) (k : FPath) :
    lookupKey (l.map fun ke => (ke.1, roundTripEntry ke.2)) k =
      (lookupKey l k).map roundTripEntry := by
  induction l with
  | nil => rfl
  | cons kv t ih =>
    simp only [List.map_cons, lookupKey]
    by_cases hk : kv.1 = k
    · rw [if_pos hk, if_pos hk]
      rfl
    · rw [if_neg hk, if_neg hk, ih]

theorem stalenessPass_keeps_all {root : FPath} {fs : FS} {l : List (FPath × Entry)}
    (h : ∀ ke ∈ l, (statFS fs (resolveKey root ke.1)).isSome) :
    (stalenessPass root fs l).hashes = l := by
  rw [stalenessPass_hashes]
  exact List.filter_eq_self.mpr h

theorem renderAddnet_roundTrip (c' : Cache) :
    renderAddnet (roundTrip c').hashesAddnet = renderAddnet c'.hashesAddnet := by
  rcases c' with ⟨hs, o⟩
  rcases o with _ | l
  · rfl
  · rcases l with _ | ⟨ke, t⟩
    · rfl
    · show renderAddnet (some ((ke :: t).map fun kv => (kv.1, roundTripEntry kv.2))) =
        renderAddnet (some (ke :: t))
      have h1 : (ke :: t).map (fun kv => (kv.1, roundTripEntry kv.2)) =
          (ke.1, roundTripEntry ke.2) :: t.map (fun kv => (kv.1, roundTripEntry kv.2)) := rfl
      have h2 := mapRender_roundTrip (ke :: t)
      rw [h1] at h2
      rw [h1]
      show ", \"hashes-addnet\": ".toList ++
          renderObj ((ke.1, roundTripEntry ke.2) :: t.map fun kv => (kv.1, roundTripEntry kv.2)) =
        ", \"hashes-addnet\": ".toList ++ renderObj (ke :: t)
      rw [renderObj_congr h2]

/-- Claim C5 (amended): feeding the first run's serialized-then-decoded
output back in as the second run's input cache over an unchanged tree
yields byte-for-byte identical serialized output, and the directory
scanner discovers no file on the second run — provided all timestamps
are post-epoch (for pre-epoch stored times the decimal re-rounding of
`%.7f` can shift the truncated second across a boundary).  However,
against the claim as stated, a kept entry whose key is not the
checkpoint-prefixed form of its own resolved path (e.g. an unprefixed
key) stays stale forever, so a rehash task IS scheduled again on the
second run; the merge merely overwrites the checkpoint key with an
identical entry, which is why the bytes still agree. -/
theorem claim5_idempotent_amended (H : List Nat → List Nat) (root : FPath) (fs : FS)
    (c : Cache) (hwf : wfFS root fs) (hnnf : nonnegFS fs) (hnnc : nonnegTimes c) :
    serializeCache (runPipeline H root fs (roundTrip (runPipeline H root fs c))) =
      serializeCache (runPipeline H root fs c) ∧
    scanPass fs (stalenessPass root fs
      (roundTrip (runPipeline H root fs c)).hashes).known = [] := by
  have hrt_hashes : (roundTrip (runPipeline H root fs c)).hashes =
      (runPipeline H root fs c).hashes.map fun ke => (ke.1, roundTripEntry ke.2) := rfl
  have hstat_all : ∀ ke ∈ (roundTrip (runPipeline H root fs c)).hashes,
      (statFS fs (resolveKey root ke.1)).isSome := by
    intro ke hke
    rw [hrt_hashes] at hke
    rcases List.mem_map.mp hke with ⟨ke0, hke0, rfl⟩
    exact @run_stat_isSome H root fs c ke0 hwf hke0
  have hkeep : (stalenessPass root fs (roundTrip (runPipeline H root fs c)).hashes).hashes =
      (roundTrip (runPipeline H root fs c)).hashes := stalenessPass_keeps_all hstat_all
  have hknown : ∀ pe ∈ fs, recognizedExt pe.1 = true →
      pe.1 ∈ (stalenessPass root fs (roundTrip (runPipeline H root fs c)).hashes).known := by
    intro pe hpe hrec
    apply mem_stalenessPass_known.mpr
    have hsome : (statFS fs pe.1).isSome :=
      statFS_isSome_iff.mpr ⟨pe.2, by rw [Prod.mk.eta]; exact hpe⟩
    by_cases hk1 : pe.1 ∈ (stalenessPass root fs c.hashes).known
    · rcases mem_stalenessPass_known.mp hk1 with ⟨ke0, hke0, hres0, hsome0⟩
      have hlk1 : (lookupKey (stalenessPass root fs c.hashes).hashes ke0.1).isSome := by
        apply lookupKey_isSome_iff.mpr
        refine ⟨ke0.2, ?_⟩
        rw [stalenessPass_hashes]
        apply List.mem_filter.mpr
        constructor
        · rw [Prod.mk.eta]
          exact hke0
        · show (statFS fs (resolveKey root ((ke0.1, ke0.2) : FPath × Entry).1)).isSome = true
          rw [show ((ke0.1, ke0.2) : FPath × Entry).1 = ke0.1 from rfl, hres0]
          exact hsome0
      have hlk2 : (lookupKey (runPipeline H root fs c).hashes ke0.1).isSome :=
        lookupKey_mergePass_isSome hlk1
      rcases lookupKey_isSome_iff.mp hlk2 with ⟨e2, he2⟩
      refine ⟨(ke0.1, roundTripEntry e2), ?_, hres0, hsome⟩
      rw [hrt_hashes]
      exact List.mem_map.mpr ⟨(ke0.1, e2), he2, rfl⟩
    · have hscan1 : pe.1 ∈ scanPass fs (stalenessPass root fs c.hashes).known :=
        mem_scanPass.mpr ⟨pe.2, by rw [Prod.mk.eta]; exact hpe, hrec, hk1⟩
      have htask1 : pe.1 ∈ allTasks root fs c.hashes := List.mem_append.mpr (Or.inr hscan1)
      rcases Option.isSome_iff_exists.mp hsome with ⟨fi1, hfi1⟩
      have hrmem : (⟨fi1.mtimeNs + 1000000000, hexBytes (H fi1.content), pe.1⟩ : Entry) ∈
          runResults H root fs c.hashes :=
        mem_runResults.mpr ⟨pe.1, htask1, runWorker_eq_some hfi1⟩
      have hlk := lookupKey_run_mergeKey hwf hrmem
      have hmem2 := lookupKey_eq_some_mem hlk
      have hpre : (root ++ ['/']) <+: pe.1 := wfFS_stat_prefix hwf hsome
      refine ⟨(mergeKey root ⟨fi1.mtimeNs + 1000000000, hexBytes (H fi1.content), pe.1⟩,
        roundTripEntry ⟨fi1.mtimeNs + 1000000000, hexBytes (H fi1.content), pe.1⟩),
        ?_, resolveKey_mergeKey hpre, hsome⟩
      rw [hrt_hashes]
      exact List.mem_map.mpr ⟨_, hmem2, rfl⟩
  have hscan2 : scanPass fs (stalenessPass root fs
      (roundTrip (runPipeline H root fs c)).hashes).known = [] := by
    unfold scanPass
    apply List.filterMap_eq_nil_iff.mpr
    intro pe hpe
    by_cases hrec : recognizedExt pe.1
    · rw [if_neg (fun hc => hc.2 (hknown pe hpe hrec))]
    · rw [if_neg (fun hc => hrec hc.1)]
  have hres2 : ∀ r ∈ runResults H root fs (roundTrip (runPipeline H root fs c)).hashes,
      ∃ v', lookupKey (roundTrip (runPipeline H root fs c)).hashes (mergeKey root r) =
        some v' ∧ renderEntryJ v' = renderEntryJ r := by
    intro r hr
    rcases mem_runResults.mp hr with ⟨p, hp, hw⟩
    unfold allTasks at hp
    rcases List.mem_append.mp hp with htask | hscan
    · rcases mem_stalenessPass_tasks.mp htask with ⟨ke', hke', hres', fi2, hfi2, hstale2⟩
      rw [hrt_hashes] at hke'
      rcases List.mem_map.mp hke' with ⟨ke0, hke0, rfl⟩
      have hnn0 : 0 ≤ ke0.2.mtimeNs := run_nonneg hnnf hnnc hke0
      have hstale1 : staleNs fi2.mtimeNs ke0.2 := staleNs_roundTrip_imp hnn0 hstale2
      rcases mem_run_hashes hke0 with ⟨hmem0, _⟩ | ⟨r1, hr1, heq⟩
      · have htask1 : p ∈ (stalenessPass root fs c.hashes).tasks :=
          mem_stalenessPass_tasks.mpr ⟨ke0, hmem0, hres', fi2, hfi2, hstale1⟩
        have htask1' : p ∈ allTasks root fs c.hashes := List.mem_append.mpr (Or.inl htask1)
        have hr1mem : (⟨fi2.mtimeNs + 1000000000, hexBytes (H fi2.content), p⟩ : Entry) ∈
            runResults H root fs c.hashes :=
          mem_runResults.mpr ⟨p, htask1', runWorker_eq_some hfi2⟩
        have hlk1 := lookupKey_run_mergeKey hwf hr1mem
        have hr_eq : r = ⟨fi2.mtimeNs + 1000000000, hexBytes (H fi2.content), p⟩ := by
          have h5 := @runWorker_eq_some H fs p fi2 hfi2
          rw [h5] at hw
          exact (Option.some.inj hw).symm
        refine ⟨roundTripEntry ⟨fi2.mtimeNs + 1000000000, hexBytes (H fi2.content), p⟩,
          ?_, ?_⟩
        · rw [hrt_hashes, lookupKey_map_roundTrip, hr_eq, hlk1]
          rfl
        · rw [hr_eq]
          exact renderEntryJ_roundTrip _
      · exfalso
        rcases mem_runResults.mp hr1 with ⟨p1, hp1, hw1⟩
        rcases runWorker_some_inv hw1 with ⟨fi1, hfi1, rfl⟩
        have hpre1 : (root ++ ['/']) <+: p1 := wfFS_stat_prefix hwf (by rw [hfi1]; rfl)
        have hke01 : ke0.1 = mergeKey root
            ⟨fi1.mtimeNs + 1000000000, hexBytes (H fi1.content), p1⟩ := by rw [heq]
        have hke02 : ke0.2 =
            (⟨fi1.mtimeNs + 1000000000, hexBytes (H fi1.content), p1⟩ : Entry) := by rw [heq]
        have hres1 : resolveKey root ke0.1 = p1 := by
          rw [hke01]
          exact resolveKey_mergeKey hpre1
        have hp_eq : p = p1 := by
          rw [← hres', hres1]
        rw [hp_eq, hfi1] at hfi2
        have hfieq : fi1 = fi2 := Option.some.inj hfi2
        rw [hke02, ← hfieq] at hstale2
        have hnn1 : 0 ≤ fi1.mtimeNs := hnnf (p1, fi1) (statFS_eq_some_mem hfi1)
        exact not_staleNs_roundTrip_margin fi1.mtimeNs hnn1 _ _ hstale2
    · rw [hscan2] at hscan
      cases hscan
  refine ⟨?_, hscan2⟩
  unfold serializeCache
  have hmap : (runPipeline H root fs (roundTrip (runPipeline H root fs c))).hashes.map
      renderPairKV = (runPipeline H root fs c).hashes.map renderPairKV := by
    show (mergePass root
      (stalenessPass root fs (roundTrip (runPipeline H root fs c)).hashes).hashes
      (runResults H root fs (roundTrip (runPipeline H root fs c)).hashes)).map renderPairKV = _
    rw [hkeep]
    rw [mapRender_mergePass hres2]
    rw [hrt_hashes]
    exact mapRender_roundTrip _
  have haddr : renderAddnet
      (runPipeline H root fs (roundTrip (runPipeline H root fs c))).hashesAddnet =
      renderAddnet (runPipeline H root fs c).hashesAddnet := by
    show renderAddnet (roundTrip (runPipeline H root fs c)).hashesAddnet =
      renderAddnet (runPipeline H root fs c).hashesAddnet
    exact renderAddnet_roundTrip _
  rw [renderObj_congr hmap, haddr]

/-- Claim C5, counterexample to the claim as stated: with an input cache
holding the unprefixed key "a.ckpt" for a stale file, the second run
(fed the decoded output of the first) schedules a rehash task again —
"no file is rehashed on the second run" fails.  (The serialized outputs
still agree, per the amended theorem.) -/
theorem claim5_counterexample :
    (stalenessPass "r".toList [("r/a.ckpt".toList, ⟨100000000000, [1]⟩)]
      (roundTrip (runPipeline (fun _ => []) "r".toList
        [("r/a.ckpt".toList, ⟨100000000000, [1]⟩)]
        ⟨[("a.ckpt".toList, ⟨0, [], []⟩)], none⟩)).hashes).tasks ≠ [] := by
  decide

theorem claim5_witness :
    wfFS "r".toList [("r/a.ckpt".toList, ⟨100000000000, [1]⟩)] ∧
    (serializeCache (runPipeline (fun _ => []) "r".toList
        [("r/a.ckpt".toList, ⟨100000000000, [1]⟩)]
        (roundTrip (runPipeline (fun _ => []) "r".toList
          [("r/a.ckpt".toList, ⟨100000000000, [1]⟩)]
          ⟨[("a.ckpt".toList, ⟨0, [], []⟩)], none⟩))) =
      serializeCache (runPipeline (fun _ => []) "r".toList
        [("r/a.ckpt".toList, ⟨100000000000, [1]⟩)]
        ⟨[("a.ckpt".toList, ⟨0, [], []⟩)], none⟩) ∧
    scanPass [("r/a.ckpt".toList, ⟨100000000000, [1]⟩)]
      (stalenessPass "r".toList [("r/a.ckpt".toList, ⟨100000000000, [1]⟩)]
        (roundTrip (runPipeline (fun _ => []) "r".toList
          [("r/a.ckpt".toList, ⟨100000000000, [1]⟩)]
          ⟨[("a.ckpt".toList, ⟨0, [], []⟩)], none⟩)).hashes).known = []) :=
  ⟨by decide, claim5_idempotent_amended (fun _ => []) "r".toList
    [("r/a.ckpt".toList, ⟨100000000000, [1]⟩)]
    ⟨[("a.ckpt".toList, ⟨0, [], []⟩)], none⟩ (by decide) (by decide) (by decide)⟩
